import Mathlib

/-!
# curl-batch: tokenizer, template substitutor, interpreter, runner and loader

A shallow embedding of `splitCurlCommand` and `executeRequest`
(curl_parser.go), of `replaceTemplate` (template.go), of `Run` (batch.go) and
of `readCSVData` (csv.go), with the properties of these functions that the
specification states.

A Go `string` is a sequence of bytes.  It is modelled as a list of natural
numbers, one per byte.  The functions compare bytes with ASCII constants and
copy them; the only arithmetic is the change of letter case in a header name,
within the letters, so no reduction modulo 256 is needed, and every statement
proved for all lists holds for the lists of bytes.

The calls into the Go library are modelled from the documented behaviour of
the library (`regexp`, `strings`, `net/textproto`, `fmt`, and the count of
fields of `encoding/csv`); what the library net/http does with a request, how
package fmt renders a map, and how the csv reader cuts a file into records are
parameters.  `Run` is modelled by the list of its effects, in order.
-/

namespace CurlBatch

/-- One byte of a Go string. -/
abbrev Byte := Nat

/-- A Go string: its bytes, in order. -/
abbrev GoString := List Byte

/-- The byte of the backslash character. -/
abbrev BACKSLASH : Byte := 92

/-- The byte of the single quote character. -/
abbrev SQUOTE : Byte := 39

/-- The byte of the double quote character. -/
abbrev DQUOTE : Byte := 34

/-- The byte of the space character. -/
abbrev SPACE : Byte := 32

/-- The byte of the horizontal tab character. -/
abbrev TAB : Byte := 9

/-- The byte of the dollar sign. -/
abbrev DOLLAR : Byte := 36

/-- The byte of the opening brace. -/
abbrev LBRACE : Byte := 123

/-- The byte of the closing brace. -/
abbrev RBRACE : Byte := 125

/-- UTF-8 encoding of one code point, as Go stores a character of a string
literal. -/
def utf8EncodeChar (c : Char) : GoString :=
  let v := c.toNat
  if v < 128 then [v]
  else if v < 2048 then [192 + v / 64, 128 + v % 64]
  else if v < 65536 then [224 + v / 4096, 128 + (v / 64) % 64, 128 + v % 64]
  else [240 + v / 262144, 128 + (v / 4096) % 64, 128 + (v / 64) % 64, 128 + v % 64]

/-- The Go string denoted by a string literal: the UTF-8 bytes of its text. -/
def bytes (s : String) : GoString :=
  (s.toList.map utf8EncodeChar).flatten

deriving instance DecidableEq for Except

/-! ## The tokenizer: `splitCurlCommand` (curl_parser.go) -/

/-- The local variables of `splitCurlCommand` that live across iterations of
its loop: `parts`, `current` (the contents of the `strings.Builder`),
`inQuotes`, `quoteChar` and `escaped`. -/
structure SplitState where
  parts : List GoString
  current : GoString
  inQuotes : Bool
  quoteChar : Byte
  escaped : Bool
deriving DecidableEq, Repr

/-- The state before the loop: no parts, an empty builder, `inQuotes` false,
`quoteChar` zero, `escaped` false. -/
def SplitState.init : SplitState :=
  { parts := [], current := [], inQuotes := false, quoteChar := 0, escaped := false }

/-- One iteration of the loop of `splitCurlCommand` on the byte `char`: the
chain of `if ... continue` blocks of the loop body, in source order. -/
def splitStep (st : SplitState) (char : Byte) : SplitState :=
  if st.escaped then
    { st with current := st.current ++ [char], escaped := false }
  else if char = BACKSLASH then
    { st with escaped := true }
  else if !st.inQuotes && (char = SQUOTE || char = DQUOTE) then
    { st with inQuotes := true, quoteChar := char }
  else if st.inQuotes && char = st.quoteChar then
    { st with inQuotes := false, quoteChar := 0,
              parts := st.parts ++ [st.current], current := [] }
  else if !st.inQuotes && (char = SPACE || char = TAB) then
    if st.current.length > 0 then
      { st with parts := st.parts ++ [st.current], current := [] }
    else st
  else
    { st with current := st.current ++ [char] }

/-- The loop of `splitCurlCommand`: `splitStep` on each byte from left to
right. -/
def splitLoop (st : SplitState) (command : GoString) : SplitState :=
  command.foldl splitStep st

/-- The code after the loop: the unclosed-quote error when still inside
quotes, else the parts, with a non-empty builder flushed as the last part. -/
def splitFinish (st : SplitState) : Except String (List GoString) :=
  if st.inQuotes then
    .error "unclosed quote in command"
  else if st.current.length > 0 then
    .ok (st.parts ++ [st.current])
  else
    .ok st.parts

/-- The function `splitCurlCommand` of curl_parser.go. -/
def splitCurlCommand (command : GoString) : Except String (List GoString) :=
  splitFinish (splitLoop SplitState.init command)

/-- Stated from the specification: the separators of bare text, space and
tab. -/
def isSeparator (c : Byte) : Bool :=
  c = SPACE || c = TAB

/-- Stated from the specification: the maximal runs of bytes other than space
and tab, in input order.  The command is cut at every separator and the empty
pieces (between two neighbouring separators, or at either end) are dropped. -/
def maximalRuns (command : GoString) : List GoString :=
  (command.splitOnP isSeparator).filter (fun t => !t.isEmpty)

/-- Stated from the specification: an argument is written bare when it is
non-empty and has no space, tab or single quote, and is wrapped in double
quotes otherwise. -/
def quoteArg (s : GoString) : GoString :=
  if s ≠ [] ∧ SPACE ∉ s ∧ TAB ∉ s ∧ SQUOTE ∉ s then s
  else [DQUOTE] ++ s ++ [DQUOTE]

/-- Stated from the specification: the written arguments joined with single
spaces. -/
def quoteCommand (args : List GoString) : GoString :=
  List.intercalate [SPACE] (args.map quoteArg)

/-- A byte of bare text: not a space, a tab, a quote or a backslash. -/
def IsBare (c : Byte) : Prop :=
  c ≠ SPACE ∧ c ≠ TAB ∧ c ≠ SQUOTE ∧ c ≠ DQUOTE ∧ c ≠ BACKSLASH

instance (c : Byte) : Decidable (IsBare c) := by
  unfold IsBare; infer_instance

/-! ## The template substitutor: `replaceTemplate` (template.go) -/

/-- A row of data, the Go `map[string]string`: the key and value pairs, a key
being looked up from the front. -/
abbrev Row := List (GoString × GoString)

/-- The two-valued map read `value, exists := data[key]`. -/
def Row.get (data : Row) (key : GoString) : Option GoString :=
  data.lookup key

/-- The regular expression `\$\{([^}]+)\}` of `replaceTemplate`, tried at the
start of `s`: a dollar sign, an opening brace, the longest run of bytes other
than the closing brace, which must not be empty, and a closing brace.  The
result is the matched text and the text after it.  The run cannot give a byte
back to let the closing brace match, since it holds no closing brace, so the
greedy choice is the only one. -/
def matchPlaceholder (s : GoString) : Option (GoString × GoString) :=
  match s with
  | c0 :: c1 :: rest =>
    if c0 = DOLLAR ∧ c1 = LBRACE then
      let name := rest.takeWhile (fun c => c != RBRACE)
      match name, rest.dropWhile (fun c => c != RBRACE) with
      | _ :: _, c2 :: after =>
        if c2 = RBRACE then some ([c0, c1] ++ name ++ [c2], after) else none
      | _, _ => none
    else none
  | _ => none

/-- The search loop of `ReplaceAllStringFunc` for the expression above, with a
bound on the number of iterations: the leftmost match is looked for from the
current position, the bytes before it are copied, the match is replaced by
`repl` of the matched text, and the search goes on after the match. -/
def replaceAllFuel (repl : GoString → GoString) : Nat → GoString → GoString
  | 0, s => s
  | _ + 1, [] => []
  | fuel + 1, c :: cs =>
    match matchPlaceholder (c :: cs) with
    | some (m, after) => repl m ++ replaceAllFuel repl fuel after
    | none => c :: replaceAllFuel repl fuel cs

/-- The library call `re.ReplaceAllStringFunc(src, repl)` with `re` the
expression of `replaceTemplate`.  Every iteration of the search consumes at
least one byte, so the length of `src` bounds their number. -/
def replaceAllStringFunc (src : GoString) (repl : GoString → GoString) : GoString :=
  replaceAllFuel repl src.length src

/-- The function literal passed to `ReplaceAllStringFunc`: the key is
`match[2 : len(match)-1]`; the value of the key when the row has it, else the
match unchanged. -/
def replaceMatch (data : Row) (m : GoString) : GoString :=
  let key := (m.take (m.length - 1)).drop 2
  match data.get key with
  | some value => value
  | none => m

/-- The method `replaceTemplate` of template.go. -/
def replaceTemplate (template : GoString) (data : Row) : GoString :=
  replaceAllStringFunc template (replaceMatch data)

/-- The opening of a placeholder, the two bytes of a dollar sign and an
opening brace. -/
abbrev OPEN : GoString := [DOLLAR, LBRACE]

/-- The text of the placeholder of the identifier `k`. -/
def placeholder (k : GoString) : GoString :=
  OPEN ++ k ++ [RBRACE]

/-! ## The command interpreter: `executeRequest` (curl_parser.go) -/

/-- The byte of the colon. -/
abbrev COLON : Byte := 58

/-- The library call `strings.HasPrefix(s, pre)`. -/
def HasPrefix (s pre : GoString) : Bool :=
  pre.isPrefixOf s

/-- The variables `method`, `url`, `body` and `headers` of `executeRequest`,
the last one holding the raw values of the header flags. -/
structure Flags where
  method : GoString
  url : GoString
  body : GoString
  headers : List GoString
deriving DecidableEq, Repr

/-- The loop `for i := 1; i < len(parts); i++` of `executeRequest`, on the
tokens from index `i` on: the `switch` on `parts[i]`, a flag taking
`parts[i+1]` and stepping over it when `i+1 < len(parts)`, the default case
keeping a token that starts with `http` as the url. -/
def flagLoop (st : Flags) : List GoString → Flags
  | [] => st
  | p :: rest =>
    if p = bytes "-X" then
      match rest with
      | v :: rest2 => flagLoop { st with method := v } rest2
      | [] => st
    else if p = bytes "-H" then
      match rest with
      | v :: rest2 => flagLoop { st with headers := st.headers ++ [v] } rest2
      | [] => st
    else if p = bytes "-d" then
      match rest with
      | v :: rest2 => flagLoop { st with body := v } rest2
      | [] => st
    else if HasPrefix p (bytes "http") then
      flagLoop { st with url := p } rest
    else
      flagLoop st rest

/-- The four variables of `executeRequest` when `http.NewRequest` is called:
the flag loop from index 1 with all four variables empty, and then the default
method `GET` for the empty method. -/
def interpretFlags (parts : List GoString) : Flags :=
  let st := flagLoop ⟨[], [], [], []⟩ (parts.drop 1)
  if st.method = [] then { st with method := bytes "GET" } else st

/-- The part of `executeRequest` between the tokenizer and `http.NewRequest`:
the invalid-command check on `parts`, and the variables set from the tokens. -/
def interpret (curlCommand : GoString) (parts : List GoString) : Except GoString Flags :=
  if parts.length < 2 ∨ parts.head? ≠ some (bytes "curl") then
    .error (bytes "invalid curl command: " ++ curlCommand)
  else
    .ok (interpretFlags parts)

/-- The library call `strings.SplitN(s, sep, 2)` for a separator of one byte:
the text cut at the first separator, or the text alone when it has none. -/
def SplitN2 (s : GoString) (sep : Byte) : List GoString :=
  match s.dropWhile (fun c => c != sep) with
  | [] => [s]
  | _ :: after => [s.takeWhile (fun c => c != sep), after]

/-- The code points of `unicode.IsSpace`: tab, line feed, vertical tab, form
feed, carriage return, space, U+0085, U+00A0, and the other characters with
the White_Space property. -/
def spaceRunes : List Nat :=
  [9, 10, 11, 12, 13, 32, 133, 160, 5760, 8192, 8193, 8194, 8195, 8196, 8197, 8198, 8199,
    8200, 8201, 8202, 8232, 8233, 8239, 8287, 12288]

/-- The UTF-8 encodings of the white space characters. -/
def spaceEncodings : List GoString :=
  spaceRunes.map (fun r => utf8EncodeChar (Char.ofNat r))

/-- Leading white space removed, at most `fuel` characters of it. -/
def trimLeftFuel : Nat → GoString → GoString
  | 0, s => s
  | fuel + 1, s =>
    match spaceEncodings.find? (fun w => w.isPrefixOf s) with
    | some w => trimLeftFuel fuel (s.drop w.length)
    | none => s

/-- Trailing white space removed, at most `fuel` characters of it. -/
def trimRightFuel : Nat → GoString → GoString
  | 0, s => s
  | fuel + 1, s =>
    match spaceEncodings.find? (fun w => w.isSuffixOf s) with
    | some w => trimRightFuel fuel (s.take (s.length - w.length))
    | none => s

/-- The library call `strings.TrimSpace(s)`: `s` without its leading and
trailing white space, as defined by Unicode.  The first character of a string
is a white space character exactly when the string starts with the encoding of
one, and likewise for the last; a string has no more characters than bytes. -/
def TrimSpace (s : GoString) : GoString :=
  trimRightFuel s.length (trimLeftFuel s.length s)

/-- The bytes allowed in a header field name, the token characters of HTTP. -/
def validHeaderFieldByte (c : Byte) : Bool :=
  (48 ≤ c && c ≤ 57) || (65 ≤ c && c ≤ 90) || (97 ≤ c && c ≤ 122) ||
    [33, 35, 36, 37, 38, 39, 42, 43, 45, 46, 94, 95, 96, 124, 126].contains c

/-- The letter case of a canonical header key: upper case for the first
letter and for a letter after a hyphen, lower case for the other letters. -/
def canonicalCase : Bool → GoString → GoString
  | _, [] => []
  | upper, c :: cs =>
    let c2 := if upper && (97 ≤ c && c ≤ 122) then c - 32
              else if !upper && (65 ≤ c && c ≤ 90) then c + 32
              else c
    c2 :: canonicalCase (c2 == 45) cs

/-- The library call `textproto.CanonicalMIMEHeaderKey(s)`: the canonical
letter case, and `s` unchanged when it holds a space or another byte that is
not allowed in a field name. -/
def CanonicalMIMEHeaderKey (s : GoString) : GoString :=
  if s.all validHeaderFieldByte then canonicalCase true s else s

/-- The type `http.Header`, a `map[string][]string`: the entries of the map,
each key once. -/
abbrev Header := List (GoString × List GoString)

/-- The method `Header.Set(key, value)`: the entry of the canonical key is
replaced by the single value. -/
def Header.Set (h : Header) (key value : GoString) : Header :=
  h.filter (fun e => e.1 != CanonicalMIMEHeaderKey key) ++ [(CanonicalMIMEHeaderKey key, [value])]

/-- The header name and value that the header loop of `executeRequest` takes
from one raw value: `SplitN(header, ":", 2)`, two pieces required, both
trimmed. -/
def parseHeader (header : GoString) : Option (GoString × GoString) :=
  match SplitN2 header COLON with
  | [name, value] => some (TrimSpace name, TrimSpace value)
  | _ => none

/-- The loop `for _, header := range headers` of `executeRequest` on the empty
header of a new request: `req.Header.Set` of each raw value that has two
pieces. -/
def setHeaders (headers : List GoString) : Header :=
  headers.foldl (fun h header =>
    match parseHeader header with
    | some (name, value) => h.Set name value
    | none => h) []

/-- The request that `executeRequest` hands to the client: the arguments of
`http.NewRequest`, the body reader being absent for the empty body, and the
header after the header loop. -/
structure Request where
  method : GoString
  url : GoString
  body : Option GoString
  header : Header
deriving DecidableEq, Repr

/-- The response as `executeRequest` uses it: the status text, the `%v`
rendering of the header, and the outcome of `io.ReadAll` on the body. -/
structure Response where
  status : GoString
  headerText : GoString
  body : Except GoString GoString

/-- The behaviour of the library net/http that `executeRequest` depends on,
taken as a parameter: the error text of `http.NewRequest(method, url, body)`,
if it fails, and the outcome of `client.Do(req)`. -/
structure HttpLibrary where
  newRequestError : GoString → GoString → Option GoString → Option GoString
  clientDo : Request → Except GoString Response

/-- The end of `executeRequest`, from `client.Do(req)` on: the request is
sent, the body of the response is read, and the report is formatted. -/
def sendRequest (lib : HttpLibrary) (req : Request) : Except GoString GoString :=
  match lib.clientDo req with
  | .error err => .error (bytes "request failed: " ++ err)
  | .ok resp =>
    match resp.body with
    | .error err => .error (bytes "failed to read response: " ++ err)
    | .ok respBody =>
      .ok (bytes "Status: " ++ resp.status ++ bytes "\nHeaders: " ++ resp.headerText ++
        bytes "\nBody: " ++ respBody)

/-- The body reader of `executeRequest`: absent for the empty body. -/
def reqBody (body : GoString) : Option GoString :=
  if body ≠ [] then some body else none

/-- The method `executeRequest` of curl_parser.go; an error is the text of the
Go error. -/
def executeRequest (lib : HttpLibrary) (curlCommand : GoString) : Except GoString GoString :=
  match splitCurlCommand curlCommand with
  | .error err => .error (bytes "failed to parse curl command: " ++ bytes err)
  | .ok parts =>
    match interpret curlCommand parts with
    | .error err => .error err
    | .ok fl =>
      match lib.newRequestError fl.method fl.url (reqBody fl.body) with
      | some err => .error (bytes "failed to create request: " ++ err)
      | none => sendRequest lib ⟨fl.method, fl.url, reqBody fl.body, setHeaders fl.headers⟩

/-- Stated from the specification: the three flags. -/
def isFlag (p : GoString) : Bool :=
  p = bytes "-X" || p = bytes "-H" || p = bytes "-d"

/-- Stated from the specification: what a token is in the walk from left to
right: a flag with the value it consumes, a flag at the end with no token
after it, or a bare token. -/
inductive Item where
  | flag (name value : GoString)
  | lone (name : GoString)
  | bare (token : GoString)
deriving DecidableEq, Repr

/-- Stated from the specification: the tokens after the command name read
left to right, each flag taking the token after it as its value. -/
def items : List GoString → List Item
  | [] => []
  | [p] => if isFlag p then [Item.lone p] else [Item.bare p]
  | p :: v :: rest =>
    if isFlag p then Item.flag p v :: items rest else Item.bare p :: items (v :: rest)

/-- Stated from the specification: the values of the flag `f`, in order. -/
def flagValues (f : GoString) (ts : List GoString) : List GoString :=
  (items ts).filterMap (fun it =>
    match it with
    | Item.flag name value => if name = f then some value else none
    | _ => none)

/-- Stated from the specification: the bare tokens that start with `http`,
in order. -/
def urlTokens (ts : List GoString) : List GoString :=
  (items ts).filterMap (fun it =>
    match it with
    | Item.bare token => if HasPrefix token (bytes "http") then some token else none
    | _ => none)

/-- Stated from the specification: the walk ends on a flag left waiting for a
value. -/
def waiting (ts : List GoString) : Bool :=
  match (items ts).getLast? with
  | some (Item.lone _) => true
  | _ => false

/-- Stated from the specification: a valid token list has at least two tokens,
the first of which is `curl`. -/
def ValidTokens (parts : List GoString) : Prop :=
  2 ≤ parts.length ∧ parts.head? = some (bytes "curl")

instance (parts : List GoString) : Decidable (ValidTokens parts) := by
  unfold ValidTokens; infer_instance

/-- Stated from the specification: the token list of a command with header
flags only: `curl`, then `-H` and its value for each value, then the url. -/
def headerTokens (hs : List GoString) (u : GoString) : List GoString :=
  bytes "curl" :: ((hs.map (fun h => [bytes "-H", h])).flatten ++ [u])

/-! ## The batch runner: `Run` (batch.go) -/

/-- The verb `%d` of package fmt on a number that is not negative: its decimal
digits. -/
def itoa (n : Nat) : GoString :=
  (Nat.toDigits 10 n).map Char.toNat

/-- The struct `CurlBatch` of batch.go, with the fields that `Run` reads; the
output file is seen through what is written to it. -/
structure Batch where
  CurlTemplate : GoString
  CSVData : List Row
  SleepMsec : Int

/-- What `Run` does to the world, in order: a `fmt.Fprintf` to the output
file, a call of `executeRequest`, a `fmt.Printf` to the standard output, a
`time.Sleep`, and the deferred `Close` of the output file. -/
inductive Event where
  | write (text : GoString)
  | request (command : GoString)
  | print (text : GoString)
  | sleep (duration : Int)
  | close
deriving DecidableEq, Repr

/-- The arithmetic of `int64`: the value reduced into the range of 64-bit
signed integers. -/
def wrapInt64 (x : Int) : Int :=
  (x + 2 ^ 63) % 2 ^ 64 - 2 ^ 63

/-- The argument of `time.Sleep`, `time.Duration(cb.SleepMsec) *
time.Millisecond`, in nanoseconds. -/
def sleepDuration (cb : Batch) : Int :=
  wrapInt64 (cb.SleepMsec * 1000000)

/-- The body of the loop of `Run` up to the test for the sleep, for the row of
index `i`: the three header lines of the fragment, the call of
`executeRequest`, the error line or the result block, the blank line, and the
progress line on the standard output.  The library behind `executeRequest`
and the `%+v` rendering of the row by package fmt are parameters. -/
def runIteration (cb : Batch) (lib : HttpLibrary) (fmtRow : Row → GoString)
    (i : Nat) (row : Row) : List Event :=
  let curlCommand := replaceTemplate cb.CurlTemplate row
  [Event.write (bytes "=== Request " ++ itoa (i + 1) ++ bytes " ===\n"),
    Event.write (bytes "Command: " ++ curlCommand ++ bytes "\n"),
    Event.write (bytes "Data: " ++ fmtRow row ++ bytes "\n"),
    Event.request curlCommand,
    (match executeRequest lib curlCommand with
      | .error err => Event.write (bytes "Error: " ++ err ++ bytes "\n")
      | .ok result => Event.write (bytes "Result:\n" ++ result ++ bytes "\n")),
    Event.write (bytes "\n"),
    Event.print (bytes "Completed request " ++ itoa (i + 1) ++ bytes "/" ++
      itoa cb.CSVData.length ++ bytes "\n")]

/-- The loop `for i, row := range cb.CSVData` of `Run`, from the index `i` on:
the body for the row, the sleep when `cb.SleepMsec > 0` and
`i < len(cb.CSVData)-1`, and the rest of the loop.  The library may behave
differently at each iteration. -/
def runLoop (cb : Batch) (libs : Nat → HttpLibrary) (fmtRow : Row → GoString) :
    Nat → List Row → List Event
  | _, [] => []
  | i, row :: rest =>
    runIteration cb (libs i) fmtRow i row ++
      (if cb.SleepMsec > 0 ∧ (i : Int) < (cb.CSVData.length : Int) - 1 then
        [Event.sleep (sleepDuration cb)]
      else []) ++
      runLoop cb libs fmtRow (i + 1) rest

/-- The method `Run` of batch.go: the events of the loop, then the deferred
`Close`, and the error returned, which is always `nil`. -/
def Run (cb : Batch) (libs : Nat → HttpLibrary) (fmtRow : Row → GoString) :
    List Event × Option GoString :=
  (runLoop cb libs fmtRow 0 cb.CSVData ++ [Event.close], none)

/-- The events of the iterations of `Run`, one list for each row, in row
order. -/
def runBlocks (cb : Batch) (libs : Nat → HttpLibrary) (fmtRow : Row → GoString) :
    List (List Event) :=
  cb.CSVData.enum.map (fun p => runIteration cb (libs p.1) fmtRow p.1 p.2)

/-- The text appended to the output file by a list of events. -/
def outputText (events : List Event) : GoString :=
  (events.filterMap (fun e =>
    match e with
    | Event.write text => some text
    | _ => none)).flatten

/-- The number of calls of `time.Sleep` in a list of events. -/
def sleepCount (events : List Event) : Nat :=
  (events.filter (fun e =>
    match e with
    | Event.sleep _ => true
    | _ => false)).length

/-- Stated from the specification: the report fragment of the request number
`i`: the header line, the command line, the data line, the error line or the
result block, and the blank line. -/
def fragment (template : GoString) (fmtRow : Row → GoString) (i : Nat) (row : Row)
    (outcome : Except GoString GoString) : GoString :=
  bytes "=== Request " ++ itoa i ++ bytes " ===\n" ++
    (bytes "Command: " ++ replaceTemplate template row ++ bytes "\n") ++
    (bytes "Data: " ++ fmtRow row ++ bytes "\n") ++
    (match outcome with
      | .error err => bytes "Error: " ++ err ++ bytes "\n"
      | .ok result => bytes "Result:\n" ++ result ++ bytes "\n") ++
    bytes "\n"

/-! ## The tabular loader: `readCSVData` (csv.go) -/

/-- The assignment `row[key] = value` on a Go map. -/
def Row.set (row : Row) (key value : GoString) : Row :=
  row.filter (fun e => e.1 != key) ++ [(key, value)]

/-- The inner loop of `readCSVData`, `row[headers[j]] = value` for each field
of a record that has as many fields as the header, on a new map. -/
def makeRow (headers record : List GoString) : Row :=
  (headers.zip record).foldl (fun row p => row.set p.1 p.2) []

/-- The text of the error of `readCSVData` for a record of the wrong length:
`record %d has %d fields, expected %d`. -/
def fieldCountError (line fields expected : Nat) : GoString :=
  bytes "record " ++ itoa line ++ bytes " has " ++ itoa fields ++ bytes " fields, expected " ++
    itoa expected

/-- The loop `for i, record := range records[1:]` of `readCSVData`, from the
index `i` on: the error at the first record whose length is not that of the
header, nothing being returned with it, else the rows. -/
def recordLoop (headers : List GoString) : Nat → List (List GoString) → Except GoString (List Row)
  | _, [] => .ok []
  | i, record :: rest =>
    if record.length ≠ headers.length then
      .error (fieldCountError (i + 2) record.length headers.length)
    else
      match recordLoop headers (i + 1) rest with
      | .error err => .error err
      | .ok data => .ok (makeRow headers record :: data)

/-- The function `readCSVData` of csv.go, on the outcome of `os.Open` and of
`reader.ReadAll()`: the error of the library, or the records read. -/
def readCSVData (readAll : Except GoString (List (List GoString))) :
    Except GoString (List Row) :=
  match readAll with
  | .error err => .error err
  | .ok [] => .error (bytes "CSV file is empty")
  | .ok (headers :: records) => recordLoop headers 0 records

/-- The file that `readCSVData` opens, as the library reads it: the error of
`os.Open`, if it fails; the records that the csv reader parses one after the
other, each with the number of the line it starts on and its fields, up to the
end of the file or to the first syntax error; and that syntax error, if there
is one. -/
structure CsvFile where
  openError : Option GoString
  records : List (Nat × List GoString)
  syntaxError : Option GoString

/-- The text of the error of the csv reader for a record with another number
of fields than expected: `record on line %d: wrong number of fields`. -/
def wrongFieldsError (line : Nat) : GoString :=
  bytes "record on line " ++ itoa line ++ bytes ": wrong number of fields"

/-- The loop of `reader.ReadAll()` with the field `FieldsPerRecord` of the
reader in `fieldsPerRecord`: when it is positive a record with another number
of fields ends the reading with the error of the reader and no record is
returned; when it is zero, as `csv.NewReader` leaves it, the record sets it to
its number of fields; a syntax error at the end of the records is returned in
the same way. -/
def readAllLoop (syntaxError : Option GoString) :
    Nat → List (Nat × List GoString) → Except GoString (List (List GoString))
  | _, [] =>
    match syntaxError with
    | some err => .error err
    | none => .ok []
  | fieldsPerRecord, (line, fields) :: rest =>
    if fieldsPerRecord > 0 ∧ fields.length ≠ fieldsPerRecord then
      .error (wrongFieldsError line)
    else
      match readAllLoop syntaxError
          (if fieldsPerRecord > 0 then fieldsPerRecord else fields.length) rest with
      | .error err => .error err
      | .ok records => .ok (fields :: records)

/-- The library calls `os.Open(filename)` and `csv.NewReader(file).ReadAll()`
at the start of `readCSVData`: the error of the first, or the outcome of the
second on a reader with `FieldsPerRecord` zero. -/
def ReadAll (file : CsvFile) : Except GoString (List (List GoString)) :=
  match file.openError with
  | some err => .error err
  | none => readAllLoop file.syntaxError 0 file.records

/-! ### The loop, one piece of the command at a time -/

@[simp] theorem splitLoop_nil (st : SplitState) : splitLoop st [] = st := rfl

@[simp] theorem splitLoop_cons (st : SplitState) (c : Byte) (cs : GoString) :
    splitLoop st (c :: cs) = splitLoop (splitStep st c) cs := rfl

@[simp] theorem splitLoop_append (st : SplitState) (u v : GoString) :
    splitLoop st (u ++ v) = splitLoop (splitLoop st u) v := by
  simp [splitLoop, List.foldl_append]

/-- An escaped byte is appended to the builder, whatever it is. -/
theorem splitStep_escaped (ps : List GoString) (cur : GoString) (q : Bool) (qc c : Byte) :
    splitStep ⟨ps, cur, q, qc, true⟩ c = ⟨ps, cur ++ [c], q, qc, false⟩ := by
  simp [splitStep]

/-- A backslash that is not itself escaped sets `escaped` and nothing else. -/
theorem splitStep_backslash (ps : List GoString) (cur : GoString) (q : Bool) (qc : Byte) :
    splitStep ⟨ps, cur, q, qc, false⟩ BACKSLASH = ⟨ps, cur, q, qc, true⟩ := by
  simp [splitStep]

/-- Outside quotes a quote character opens a quoted segment. -/
theorem splitStep_open (ps : List GoString) (cur : GoString) (qc c : Byte)
    (hc : c = SQUOTE ∨ c = DQUOTE) :
    splitStep ⟨ps, cur, false, qc, false⟩ c = ⟨ps, cur, true, c, false⟩ := by
  rcases hc with rfl | rfl <;> simp [splitStep]

/-- Inside quotes the active quote character closes the segment and flushes
the builder, empty or not. -/
theorem splitStep_close (ps : List GoString) (cur : GoString) (qc : Byte)
    (hq : qc ≠ BACKSLASH) :
    splitStep ⟨ps, cur, true, qc, false⟩ qc = ⟨ps ++ [cur], [], false, 0, false⟩ := by
  simp [splitStep, hq]

/-- Outside quotes a separator flushes a non-empty builder. -/
theorem splitStep_sep (ps : List GoString) (cur : GoString) (qc c : Byte)
    (hc : c = SPACE ∨ c = TAB) :
    splitStep ⟨ps, cur, false, qc, false⟩ c =
      if cur = [] then ⟨ps, cur, false, qc, false⟩ else ⟨ps ++ [cur], [], false, qc, false⟩ := by
  rcases hc with rfl | rfl <;> cases cur <;> simp [splitStep]

/-- Outside quotes a bare byte is appended to the builder. -/
theorem splitStep_bare (ps : List GoString) (cur : GoString) (qc c : Byte) (hc : IsBare c) :
    splitStep ⟨ps, cur, false, qc, false⟩ c = ⟨ps, cur ++ [c], false, qc, false⟩ := by
  obtain ⟨h1, h2, h3, h4, h5⟩ := hc
  simp [splitStep, h1, h2, h3, h4, h5]

/-- Inside quotes every byte other than the active quote and the backslash is
appended to the builder. -/
theorem splitStep_inside (ps : List GoString) (cur : GoString) (qc c : Byte)
    (h1 : c ≠ qc) (h2 : c ≠ BACKSLASH) :
    splitStep ⟨ps, cur, true, qc, false⟩ c = ⟨ps, cur ++ [c], true, qc, false⟩ := by
  simp [splitStep, h1, h2]

/-- A run of bare bytes outside quotes goes to the builder unchanged. -/
theorem splitLoop_bare (w : GoString) :
    ∀ (ps : List GoString) (cur : GoString) (qc : Byte), (∀ c ∈ w, IsBare c) →
      splitLoop ⟨ps, cur, false, qc, false⟩ w = ⟨ps, cur ++ w, false, qc, false⟩ := by
  induction w with
  | nil => intro ps cur qc _; simp
  | cons c cs ih =>
    intro ps cur qc h
    rw [splitLoop_cons, splitStep_bare _ _ _ _ (h c (List.mem_cons_self _ _)),
      ih _ _ _ (fun x hx => h x (List.mem_cons_of_mem _ hx))]
    simp

/-- Inside quotes a run of bytes without the active quote and without a
backslash goes to the builder unchanged. -/
theorem splitLoop_inside (w : GoString) :
    ∀ (ps : List GoString) (cur : GoString) (qc : Byte),
      (∀ c ∈ w, c ≠ qc ∧ c ≠ BACKSLASH) →
      splitLoop ⟨ps, cur, true, qc, false⟩ w = ⟨ps, cur ++ w, true, qc, false⟩ := by
  induction w with
  | nil => intro ps cur qc _; simp
  | cons c cs ih =>
    intro ps cur qc h
    have hc := h c (List.mem_cons_self _ _)
    rw [splitLoop_cons, splitStep_inside _ _ _ _ hc.1 hc.2,
      ih _ _ _ (fun x hx => h x (List.mem_cons_of_mem _ hx))]
    simp

/-- Text without quotes and backslashes leaves the loop outside quotes and
not escaped. -/
theorem splitLoop_unquoted_state (w : GoString) :
    ∀ (ps : List GoString) (cur : GoString) (qc : Byte),
      (∀ c ∈ w, c ≠ SQUOTE ∧ c ≠ DQUOTE ∧ c ≠ BACKSLASH) →
      ∃ ps2 cur2, splitLoop ⟨ps, cur, false, qc, false⟩ w = ⟨ps2, cur2, false, qc, false⟩ := by
  induction w with
  | nil => intro ps cur qc _; exact ⟨ps, cur, rfl⟩
  | cons c cs ih =>
    intro ps cur qc h
    obtain ⟨h1, h2, h3⟩ := h c (List.mem_cons_self _ _)
    have hcs : ∀ x ∈ cs, x ≠ SQUOTE ∧ x ≠ DQUOTE ∧ x ≠ BACKSLASH :=
      fun x hx => h x (List.mem_cons_of_mem _ hx)
    rw [splitLoop_cons]
    by_cases hsep : c = SPACE ∨ c = TAB
    · rw [splitStep_sep _ _ _ _ hsep]
      split
      · exact ih _ _ _ hcs
      · exact ih _ _ _ hcs
    · rw [splitStep_bare _ _ _ _ ⟨fun e => hsep (Or.inl e), fun e => hsep (Or.inr e), h1, h2, h3⟩]
      exact ih _ _ _ hcs

/-- The tokens of text without quotes and backslashes, from any state outside
quotes: the parts so far, then the maximal runs, the first one continuing the
builder. -/
theorem splitFinish_unquoted (w : GoString) :
    ∀ (ps : List GoString) (cur : GoString) (qc : Byte),
      (∀ c ∈ w, c ≠ SQUOTE ∧ c ≠ DQUOTE ∧ c ≠ BACKSLASH) →
      splitFinish (splitLoop ⟨ps, cur, false, qc, false⟩ w) =
        .ok (ps ++ (((w.splitOnP isSeparator).modifyHead (fun t => cur ++ t)).filter
          (fun t => !t.isEmpty))) := by
  induction w with
  | nil =>
    intro ps cur qc _
    cases cur <;> simp [splitFinish, List.splitOnP_nil]
  | cons c cs ih =>
    intro ps cur qc h
    obtain ⟨h1, h2, h3⟩ := h c (List.mem_cons_self _ _)
    have hcs : ∀ x ∈ cs, x ≠ SQUOTE ∧ x ≠ DQUOTE ∧ x ≠ BACKSLASH :=
      fun x hx => h x (List.mem_cons_of_mem _ hx)
    rw [splitLoop_cons, List.splitOnP_cons]
    by_cases hsep : c = SPACE ∨ c = TAB
    · have hp : isSeparator c = true := by
        rcases hsep with rfl | rfl <;> simp [isSeparator]
      rw [splitStep_sep _ _ _ _ hsep]
      have hid : ∀ l : List GoString, l.modifyHead (fun t => t) = l := by
        intro l; cases l <;> rfl
      cases cur with
      | nil => simp [hp, ih _ _ _ hcs, hid]
      | cons x xs => simp [hp, ih _ _ _ hcs, hid]
    · have hp : isSeparator c = false := by
        simp only [isSeparator, Bool.or_eq_false_iff, decide_eq_false_iff_not]
        exact ⟨fun e => hsep (Or.inl e), fun e => hsep (Or.inr e)⟩
      rw [splitStep_bare _ _ _ _ ⟨fun e => hsep (Or.inl e), fun e => hsep (Or.inr e), h1, h2, h3⟩,
        ih _ _ _ hcs]
      simp [hp, List.modifyHead_modifyHead, Function.comp_def]

/-- No piece cut by `splitOnP` holds a byte at which it cuts. -/
theorem mem_splitOnP_sepFree (p : Byte → Bool) (l : GoString) :
    ∀ t ∈ l.splitOnP p, ∀ c ∈ t, p c = false := by
  induction l with
  | nil => intro t ht c hc; simp [List.splitOnP_nil] at ht; subst ht; simp at hc
  | cons x xs ih =>
    intro t ht c hc
    rw [List.splitOnP_cons] at ht
    by_cases hx : p x = true
    · simp only [hx, if_true, List.mem_cons] at ht
      rcases ht with rfl | ht
      · simp at hc
      · exact ih t ht c hc
    · simp only [hx, Bool.false_eq_true, if_false] at ht
      cases hs : xs.splitOnP p with
      | nil => rw [hs] at ht; simp at ht
      | cons hd tl =>
        rw [hs, List.modifyHead_cons, List.mem_cons] at ht
        rcases ht with rfl | ht
        · rcases List.mem_cons.1 hc with rfl | hc2
          · simpa using hx
          · exact ih hd (by rw [hs]; exact List.mem_cons_self _ _) c hc2
        · exact ih t (by rw [hs]; exact List.mem_cons_of_mem _ ht) c hc

/-- Cutting at a separator in the middle cuts the two sides independently. -/
theorem splitOnP_append_sep (p : Byte → Bool) (x : Byte) (hx : p x = true) (u v : GoString) :
    (u ++ x :: v).splitOnP p = u.splitOnP p ++ v.splitOnP p := by
  induction u with
  | nil => simp [List.splitOnP_cons, hx, List.splitOnP_nil]
  | cons y ys ih =>
    rw [List.cons_append, List.splitOnP_cons, List.splitOnP_cons, ih]
    by_cases hy : p y = true
    · simp [hy]
    · simp only [hy, Bool.false_eq_true, if_false]
      cases hs : ys.splitOnP p with
      | nil => exact absurd hs (List.splitOnP_ne_nil _ _)
      | cons hd tl => simp

/-- The runs on the two sides of one separator. -/
theorem maximalRuns_append_sep (x : Byte) (hx : x = SPACE ∨ x = TAB) (u v : GoString) :
    maximalRuns (u ++ x :: v) = maximalRuns u ++ maximalRuns v := by
  have hp : isSeparator x = true := by rcases hx with rfl | rfl <;> simp [isSeparator]
  simp [maximalRuns, splitOnP_append_sep isSeparator x hp]

/-- The empty command has no run. -/
theorem maximalRuns_nil : maximalRuns [] = [] := by
  simp [maximalRuns, List.splitOnP_nil]

/-- A block of separators between two texts counts as one separator. -/
theorem maximalRuns_append_block (g : GoString) (hg : ∀ c ∈ g, c = SPACE ∨ c = TAB) :
    ∀ u v : GoString, g ≠ [] → maximalRuns (u ++ g ++ v) = maximalRuns u ++ maximalRuns v := by
  induction g with
  | nil => intro u v h; exact absurd rfl h
  | cons x xs ih =>
    intro u v _
    have hx := hg x (List.mem_cons_self _ _)
    have hxs : ∀ c ∈ xs, c = SPACE ∨ c = TAB := fun c hc => hg c (List.mem_cons_of_mem _ hc)
    rw [List.append_assoc, List.cons_append, maximalRuns_append_sep x hx]
    by_cases hnil : xs = []
    · subst hnil; simp
    · have := ih hxs [] v hnil
      simp only [List.nil_append, maximalRuns_nil] at this
      rw [this]

/-- C2: a command without quotes and backslashes splits, without error, into
its maximal runs of bytes other than space and tab, in input order; no token
is empty or holds a separator, a block of consecutive separators separates as
one does, and a command of separators only (the empty one included) gives no
token. -/
theorem splitCurlCommand_unquoted (command : GoString)
    (h : ∀ c ∈ command, c ≠ SQUOTE ∧ c ≠ DQUOTE ∧ c ≠ BACKSLASH) :
    splitCurlCommand command = .ok (maximalRuns command) ∧
    (∀ t ∈ maximalRuns command, t ≠ [] ∧ ∀ c ∈ t, c ≠ SPACE ∧ c ≠ TAB) ∧
    (∀ u g v : GoString, command = u ++ g ++ v → g ≠ [] → (∀ c ∈ g, c = SPACE ∨ c = TAB) →
      splitCurlCommand command = .ok (maximalRuns u ++ maximalRuns v)) ∧
    ((∀ c ∈ command, c = SPACE ∨ c = TAB) → splitCurlCommand command = .ok []) := by
  have hmain : splitCurlCommand command = .ok (maximalRuns command) := by
    have := splitFinish_unquoted command [] [] 0 h
    have hid : ∀ l : List GoString, l.modifyHead (fun t => t) = l := by
      intro l; cases l <;> rfl
    simpa [splitCurlCommand, SplitState.init, maximalRuns, hid] using this
  refine ⟨hmain, ?_, ?_, ?_⟩
  · intro t ht
    simp only [maximalRuns, List.mem_filter] at ht
    refine ⟨by intro e; subst e; simp at ht, fun c hc => ?_⟩
    have := mem_splitOnP_sepFree isSeparator command t ht.1 c hc
    simp only [isSeparator, Bool.or_eq_false_iff, decide_eq_false_iff_not] at this
    exact this
  · intro u g v e hg hsep
    rw [hmain, e, maximalRuns_append_block g hsep u v hg]
  · intro hsep
    rw [hmain]
    by_cases hnil : command = []
    · subst hnil; rw [maximalRuns_nil]
    · have := maximalRuns_append_block command hsep [] [] hnil
      simpa [maximalRuns_nil] using this

/-- Witness of C2: the command `curl   -X   POST   https://api.example.com`,
with its blocks of three spaces, gives its four words. -/
theorem splitCurlCommand_unquoted_witness :
    splitCurlCommand (bytes "curl   -X   POST   https://api.example.com") =
      .ok [bytes "curl", bytes "-X", bytes "POST", bytes "https://api.example.com"] ∧
    splitCurlCommand (bytes "") = .ok [] ∧
    splitCurlCommand (bytes "curl") = .ok [bytes "curl"] ∧
    splitCurlCommand (bytes "curl   -X   POST   https://api.example.com") =
      .ok (maximalRuns (bytes "curl   -X   POST   https://api.example.com")) :=
  ⟨by decide, by decide, by decide,
    (splitCurlCommand_unquoted (bytes "curl   -X   POST   https://api.example.com")
      (by decide)).1⟩

/-- C3: an empty quoted argument between two bare words gives an explicit
empty token: for bare non-empty words `a` and `b` and either quote character
`q`, the command `a`, space, `q`, `q`, space, `b` splits without error into
exactly `a`, the empty string and `b`. -/
theorem splitCurlCommand_empty_quotes (a b : GoString) (q : Byte)
    (hq : q = SQUOTE ∨ q = DQUOTE)
    (ha : a ≠ []) (hb : b ≠ [])
    (hA : ∀ c ∈ a, IsBare c) (hB : ∀ c ∈ b, IsBare c) :
    splitCurlCommand (a ++ [SPACE] ++ [q, q] ++ [SPACE] ++ b) = .ok [a, [], b] := by
  have hqb : q ≠ BACKSLASH := by rcases hq with rfl | rfl <;> decide
  simp only [splitCurlCommand, SplitState.init, splitLoop_append, splitLoop_cons, splitLoop_nil]
  rw [splitLoop_bare a _ _ _ hA, List.nil_append, splitStep_sep _ _ _ _ (Or.inl rfl),
    if_neg ha, splitStep_open _ _ _ _ hq, splitStep_close _ _ _ hqb,
    splitStep_sep _ _ _ _ (Or.inl rfl), if_pos rfl, splitLoop_bare b _ _ _ hB]
  cases b with
  | nil => exact absurd rfl hb
  | cons x xs => simp [splitFinish]

/-- Witness of C3: the words `-H` and `https://api.example.com` around an
empty pair of double quotes; the whole command of the test is evaluated next
to it. -/
theorem splitCurlCommand_empty_quotes_witness :
    splitCurlCommand (bytes "-H" ++ [SPACE] ++ [DQUOTE, DQUOTE] ++ [SPACE] ++
        bytes "https://api.example.com") =
      .ok [bytes "-H", [], bytes "https://api.example.com"] ∧
    splitCurlCommand (bytes "curl -H \"\" https://api.example.com") =
      .ok [bytes "curl", bytes "-H", [], bytes "https://api.example.com"] :=
  ⟨splitCurlCommand_empty_quotes (bytes "-H") (bytes "https://api.example.com") DQUOTE
    (Or.inr rfl) (by decide) (by decide) (by decide) (by decide), by decide⟩

/-- C4: an unclosed quote gives the tokenization error and no tokens: for
either quote character `q`, a text `p` without quotes and backslashes and a
text `s` without `q` and without backslashes, the command `p`, `q`, `s` fails
with the unclosed-quote error. -/
theorem splitCurlCommand_unclosed_quote (p s : GoString) (q : Byte)
    (hq : q = SQUOTE ∨ q = DQUOTE)
    (hp : ∀ c ∈ p, c ≠ SQUOTE ∧ c ≠ DQUOTE ∧ c ≠ BACKSLASH)
    (hs : ∀ c ∈ s, c ≠ q ∧ c ≠ BACKSLASH) :
    splitCurlCommand (p ++ [q] ++ s) = .error "unclosed quote in command" := by
  obtain ⟨ps, cur, hst⟩ := splitLoop_unquoted_state p [] [] 0 hp
  simp only [splitCurlCommand, SplitState.init, splitLoop_append, splitLoop_cons, splitLoop_nil]
  rw [hst, splitStep_open _ _ _ _ hq, splitLoop_inside s _ _ _ hs]
  simp [splitFinish]

/-- Witness of C4: the command
`curl -H "Content-Type: application/json https://api.example.com`. -/
theorem splitCurlCommand_unclosed_quote_witness :
    splitCurlCommand (bytes "curl -H " ++ [DQUOTE] ++
        bytes "Content-Type: application/json https://api.example.com") =
      .error "unclosed quote in command" ∧
    bytes "curl -H " ++ [DQUOTE] ++
        bytes "Content-Type: application/json https://api.example.com" =
      bytes "curl -H \"Content-Type: application/json https://api.example.com" :=
  ⟨splitCurlCommand_unclosed_quote (bytes "curl -H ")
    (bytes "Content-Type: application/json https://api.example.com") DQUOTE
    (Or.inr rfl) (by decide) (by decide), by decide⟩

/-- C5: a backslash makes the next byte literal, outside and inside quotes:
for every byte `c`, bare texts `a` and `b` give the single token `a c b` from
the command `a`, backslash, `c`, `b`, and texts `u` and `v` without single
quotes and backslashes give the single token `u c v` from the command made of
`u`, backslash, `c`, `v` between single quotes; the token holds a backslash
only when `c` is one. -/
theorem splitCurlCommand_backslash (c : Byte) (a b u v : GoString)
    (hA : ∀ x ∈ a, IsBare x) (hB : ∀ x ∈ b, IsBare x)
    (hU : ∀ x ∈ u, x ≠ SQUOTE ∧ x ≠ BACKSLASH) (hV : ∀ x ∈ v, x ≠ SQUOTE ∧ x ≠ BACKSLASH) :
    splitCurlCommand (a ++ [BACKSLASH] ++ [c] ++ b) = .ok [a ++ [c] ++ b] ∧
    splitCurlCommand ([SQUOTE] ++ u ++ [BACKSLASH] ++ [c] ++ v ++ [SQUOTE]) =
      .ok [u ++ [c] ++ v] ∧
    (c ≠ BACKSLASH → BACKSLASH ∉ a ++ [c] ++ b ∧ BACKSLASH ∉ u ++ [c] ++ v) := by
  refine ⟨?_, ?_, ?_⟩
  · simp only [splitCurlCommand, SplitState.init, splitLoop_append, splitLoop_cons,
      splitLoop_nil]
    rw [splitLoop_bare a _ _ _ hA, splitStep_backslash, splitStep_escaped,
      splitLoop_bare b _ _ _ hB]
    simp [splitFinish]
  · simp only [splitCurlCommand, SplitState.init, splitLoop_append, splitLoop_cons,
      splitLoop_nil]
    rw [splitStep_open _ _ _ _ (Or.inl rfl), splitLoop_inside u _ _ _ hU, splitStep_backslash,
      splitStep_escaped, splitLoop_inside v _ _ _ hV, splitStep_close _ _ _ (by decide)]
    simp [splitFinish]
  · intro hc
    simp only [List.mem_append, List.mem_singleton, not_or]
    exact ⟨⟨⟨fun h => (hA _ h).2.2.2.2 rfl, fun h => hc h.symm⟩, fun h => (hB _ h).2.2.2.2 rfl⟩,
      ⟨⟨fun h => (hU _ h).2 rfl, fun h => hc h.symm⟩, fun h => (hV _ h).2 rfl⟩⟩

/-- Witness of C5: `line1\nline2`, bare and inside single quotes, becomes
`line1nline2`; the texts of the tests with several backslashes are evaluated
next to it. -/
theorem splitCurlCommand_backslash_witness :
    (splitCurlCommand (bytes "line1" ++ [BACKSLASH] ++ [110] ++ bytes "line2") =
        .ok [bytes "line1" ++ [110] ++ bytes "line2"] ∧
      splitCurlCommand ([SQUOTE] ++ bytes "line1" ++ [BACKSLASH] ++ [110] ++ bytes "line2" ++
          [SQUOTE]) = .ok [bytes "line1" ++ [110] ++ bytes "line2"] ∧
      ((110 : Byte) ≠ BACKSLASH → BACKSLASH ∉ bytes "line1" ++ [110] ++ bytes "line2" ∧
        BACKSLASH ∉ bytes "line1" ++ [110] ++ bytes "line2")) ∧
    splitCurlCommand (bytes "'line1\\nline2'") = .ok [bytes "line1nline2"] ∧
    splitCurlCommand (bytes "'\\\"Hello\\\"'") = .ok [bytes "\"Hello\""] ∧
    splitCurlCommand (bytes "'C:\\\\Users\\\\test'") = .ok [bytes "C:\\Users\\test"] :=
  ⟨splitCurlCommand_backslash 110 (bytes "line1") (bytes "line2") (bytes "line1") (bytes "line2")
    (by decide) (by decide) (by decide) (by decide), by decide, by decide, by decide⟩

/-- C6: two double-quoted segments with nothing between them are two tokens:
for texts `s` and `t` without double quotes and backslashes, the command made
of `s` in double quotes directly followed by `t` in double quotes splits
without error into exactly `s` and `t`, which is not the single token
`s t`. -/
theorem splitCurlCommand_adjacent_quotes (s t : GoString)
    (hs : ∀ c ∈ s, c ≠ DQUOTE ∧ c ≠ BACKSLASH) (ht : ∀ c ∈ t, c ≠ DQUOTE ∧ c ≠ BACKSLASH) :
    splitCurlCommand ([DQUOTE] ++ s ++ [DQUOTE] ++ [DQUOTE] ++ t ++ [DQUOTE]) = .ok [s, t] ∧
    splitCurlCommand ([DQUOTE] ++ s ++ [DQUOTE] ++ [DQUOTE] ++ t ++ [DQUOTE]) ≠
      .ok [s ++ t] := by
  have h : splitCurlCommand ([DQUOTE] ++ s ++ [DQUOTE] ++ [DQUOTE] ++ t ++ [DQUOTE]) =
      .ok [s, t] := by
    simp only [splitCurlCommand, SplitState.init, splitLoop_append, splitLoop_cons,
      splitLoop_nil]
    rw [splitStep_open _ _ _ _ (Or.inr rfl), splitLoop_inside s _ _ _ hs,
      splitStep_close _ _ _ (by decide), splitStep_open _ _ _ _ (Or.inr rfl),
      splitLoop_inside t _ _ _ ht, splitStep_close _ _ _ (by decide)]
    simp [splitFinish]
  refine ⟨h, ?_⟩
  rw [h]
  intro e
  have := congrArg (fun r => match r with | Except.ok l => l.length | Except.error _ => 0) e
  simp at this

/-- Witness of C6: the command `"a""b"` gives `a` and `b`. -/
theorem splitCurlCommand_adjacent_quotes_witness :
    (splitCurlCommand ([DQUOTE] ++ bytes "a" ++ [DQUOTE] ++ [DQUOTE] ++ bytes "b" ++ [DQUOTE]) =
        .ok [bytes "a", bytes "b"] ∧
      splitCurlCommand ([DQUOTE] ++ bytes "a" ++ [DQUOTE] ++ [DQUOTE] ++ bytes "b" ++ [DQUOTE]) ≠
        .ok [bytes "a" ++ bytes "b"]) ∧
    splitCurlCommand (bytes "\"a\"\"b\"") = .ok [bytes "a", bytes "b"] :=
  ⟨splitCurlCommand_adjacent_quotes (bytes "a") (bytes "b") (by decide) (by decide), by decide⟩

/-- The loop over one written argument followed by a space: the argument is
added to the parts and the builder is empty again. -/
theorem splitLoop_quoteArg_space (s : GoString) (ps : List GoString) (qc : Byte)
    (hs : DQUOTE ∉ s ∧ BACKSLASH ∉ s) :
    ∃ qc2, splitLoop ⟨ps, [], false, qc, false⟩ (quoteArg s ++ [SPACE]) =
      ⟨ps ++ [s], [], false, qc2, false⟩ := by
  unfold quoteArg
  split
  · next hb =>
    obtain ⟨hne, h1, h2, h3⟩ := hb
    have hbare : ∀ c ∈ s, IsBare c := fun c hc =>
      ⟨fun e => h1 (e ▸ hc), fun e => h2 (e ▸ hc), fun e => h3 (e ▸ hc),
        fun e => hs.1 (e ▸ hc), fun e => hs.2 (e ▸ hc)⟩
    refine ⟨qc, ?_⟩
    simp only [splitLoop_append, splitLoop_cons, splitLoop_nil]
    rw [splitLoop_bare s _ _ _ hbare, List.nil_append, splitStep_sep _ _ _ _ (Or.inl rfl),
      if_neg hne]
  · have hin : ∀ c ∈ s, c ≠ DQUOTE ∧ c ≠ BACKSLASH := fun c hc =>
      ⟨fun e => hs.1 (e ▸ hc), fun e => hs.2 (e ▸ hc)⟩
    refine ⟨0, ?_⟩
    simp only [splitLoop_append, splitLoop_cons, splitLoop_nil]
    rw [splitStep_open _ _ _ _ (Or.inr rfl), splitLoop_inside s _ _ _ hin, List.nil_append,
      splitStep_close _ _ _ (by decide), splitStep_sep _ _ _ _ (Or.inl rfl), if_pos rfl]

/-- The loop over one written argument at the end of the command: the
argument is the last token. -/
theorem splitFinish_quoteArg (s : GoString) (ps : List GoString) (qc : Byte)
    (hs : DQUOTE ∉ s ∧ BACKSLASH ∉ s) :
    splitFinish (splitLoop ⟨ps, [], false, qc, false⟩ (quoteArg s)) = .ok (ps ++ [s]) := by
  unfold quoteArg
  split
  · next hb =>
    obtain ⟨hne, h1, h2, h3⟩ := hb
    have hbare : ∀ c ∈ s, IsBare c := fun c hc =>
      ⟨fun e => h1 (e ▸ hc), fun e => h2 (e ▸ hc), fun e => h3 (e ▸ hc),
        fun e => hs.1 (e ▸ hc), fun e => hs.2 (e ▸ hc)⟩
    rw [splitLoop_bare s _ _ _ hbare, List.nil_append]
    cases s with
    | nil => exact absurd rfl hne
    | cons x xs => simp [splitFinish]
  · have hin : ∀ c ∈ s, c ≠ DQUOTE ∧ c ≠ BACKSLASH := fun c hc =>
      ⟨fun e => hs.1 (e ▸ hc), fun e => hs.2 (e ▸ hc)⟩
    simp only [splitLoop_append, splitLoop_cons, splitLoop_nil]
    rw [splitStep_open _ _ _ _ (Or.inr rfl), splitLoop_inside s _ _ _ hin, List.nil_append,
      splitStep_close _ _ _ (by decide)]
    simp [splitFinish]

/-- The round trip from any state with an empty builder outside quotes. -/
theorem splitFinish_quoteCommand (args : List GoString) :
    ∀ (ps : List GoString) (qc : Byte), (∀ s ∈ args, DQUOTE ∉ s ∧ BACKSLASH ∉ s) →
      splitFinish (splitLoop ⟨ps, [], false, qc, false⟩ (quoteCommand args)) =
        .ok (ps ++ args) := by
  induction args with
  | nil => intro ps qc _; simp [quoteCommand, List.intercalate, splitFinish]
  | cons s rest ih =>
    intro ps qc h
    have hs := h s (List.mem_cons_self _ _)
    cases rest with
    | nil =>
      have : quoteCommand [s] = quoteArg s := by simp [quoteCommand, List.intercalate]
      rw [this, splitFinish_quoteArg s ps qc hs]
    | cons s2 rest2 =>
      have : quoteCommand (s :: s2 :: rest2) =
          (quoteArg s ++ [SPACE]) ++ quoteCommand (s2 :: rest2) := by
        simp [quoteCommand, List.intercalate]
      obtain ⟨qc2, hq⟩ := splitLoop_quoteArg_space s ps qc hs
      rw [this, splitLoop_append, hq, ih _ _ (fun x hx => h x (List.mem_cons_of_mem _ hx))]
      simp

/-- C1: quote, then split, gives the arguments back: for every list of
strings without double quotes and backslashes, each written bare when it is
non-empty and has no space, tab or single quote and between double quotes
otherwise, the writings joined with single spaces, `splitCurlCommand` returns
no error and exactly the list. -/
theorem splitCurlCommand_quoteCommand (args : List GoString)
    (h : ∀ s ∈ args, DQUOTE ∉ s ∧ BACKSLASH ∉ s) :
    splitCurlCommand (quoteCommand args) = .ok args := by
  have := splitFinish_quoteCommand args [] 0 h
  simpa [splitCurlCommand, SplitState.init] using this

/-- Witness of C1: the six arguments of the command
`curl -X POST -H "Content-Type: application/json" https://api.example.com`,
which is their writing. -/
theorem splitCurlCommand_quoteCommand_witness :
    quoteCommand [bytes "curl", bytes "-X", bytes "POST", bytes "-H",
        bytes "Content-Type: application/json", bytes "https://api.example.com"] =
      bytes "curl -X POST -H \"Content-Type: application/json\" https://api.example.com" ∧
    splitCurlCommand (quoteCommand [bytes "curl", bytes "-X", bytes "POST", bytes "-H",
        bytes "Content-Type: application/json", bytes "https://api.example.com"]) =
      .ok [bytes "curl", bytes "-X", bytes "POST", bytes "-H",
        bytes "Content-Type: application/json", bytes "https://api.example.com"] :=
  ⟨by decide, splitCurlCommand_quoteCommand _ (by decide)⟩

/-! ### The search loop of the substitutor -/

/-- A match is a non-empty start of the text it is found in, and what is
returned with it is the rest of that text. -/
theorem matchPlaceholder_some (s m after : GoString)
    (h : matchPlaceholder s = some (m, after)) :
    s = m ++ after ∧ after.length < s.length := by
  unfold matchPlaceholder at h
  split at h
  · next c0 c1 rest =>
    split at h
    · dsimp only at h
      split at h
      · next x xs c2 aft hname hdrop =>
        split at h
        · next hc2 =>
          simp only [Option.some.injEq, Prod.mk.injEq] at h
          obtain ⟨hm, ha⟩ := h
          subst hm ha
          have hrest := List.takeWhile_append_dropWhile (fun c => c != RBRACE) rest
          rw [hname, hdrop] at hrest
          constructor
          · rw [hname, ← hrest]; simp
          · rw [← hrest]; simp; omega
        · cases h
      · cases h
    · cases h
  · cases h

/-- Fuel beyond the length of the text changes nothing. -/
theorem replaceAllFuel_of_le (repl : GoString → GoString) (n : Nat) :
    ∀ (s : GoString), s.length ≤ n →
      replaceAllFuel repl n s = replaceAllFuel repl s.length s := by
  induction n using Nat.strong_induction_on with
  | _ n ih =>
    intro s hs
    cases s with
    | nil => cases n <;> rfl
    | cons c cs =>
      cases n with
      | zero => simp at hs
      | succ k =>
        simp only [List.length_cons, replaceAllFuel]
        have hk : cs.length ≤ k := by simpa using hs
        cases hm : matchPlaceholder (c :: cs) with
        | none =>
          simp only
          rw [ih k (Nat.lt_succ_self k) cs hk]
        | some r =>
          obtain ⟨m, after⟩ := r
          have hlen := (matchPlaceholder_some _ _ _ hm).2
          simp only [List.length_cons] at hlen
          have h1 : after.length ≤ k := by omega
          have h2 : after.length ≤ cs.length := by omega
          simp only
          rw [ih k (Nat.lt_succ_self k) after h1, ih cs.length (by omega) after h2]

/-- The search on the empty text. -/
theorem replaceAllStringFunc_nil (repl : GoString → GoString) :
    replaceAllStringFunc [] repl = [] := rfl

/-- One iteration of the search: at a match, its replacement and the search
after it; else the byte copied and the search from the next byte. -/
theorem replaceAllStringFunc_cons (repl : GoString → GoString) (c : Byte) (cs : GoString) :
    replaceAllStringFunc (c :: cs) repl =
      match matchPlaceholder (c :: cs) with
      | some (m, after) => repl m ++ replaceAllStringFunc after repl
      | none => c :: replaceAllStringFunc cs repl := by
  simp only [replaceAllStringFunc, List.length_cons, replaceAllFuel]
  cases hm : matchPlaceholder (c :: cs) with
  | none => rfl
  | some r =>
    obtain ⟨m, after⟩ := r
    have hlen := (matchPlaceholder_some _ _ _ hm).2
    simp only [List.length_cons] at hlen
    simp only
    rw [replaceAllFuel_of_le repl cs.length after (by omega)]

/-- The expression matches a well-formed placeholder at the start of a text,
and only the placeholder. -/
theorem matchPlaceholder_placeholder (k b : GoString) (hk : k ≠ []) (hr : RBRACE ∉ k) :
    matchPlaceholder (placeholder k ++ b) = some (placeholder k, b) := by
  have hp : ∀ c ∈ k, (fun c : Byte => c != RBRACE) c = true := by
    intro c hc
    have : c ≠ RBRACE := fun e => hr (e ▸ hc)
    simpa using this
  have ht : (k ++ RBRACE :: b).takeWhile (fun c => c != RBRACE) = k := by
    rw [List.takeWhile_append_of_pos hp]; simp
  have hd : (k ++ RBRACE :: b).dropWhile (fun c => c != RBRACE) = RBRACE :: b := by
    rw [List.dropWhile_append_of_pos hp]; simp
  have hshape : placeholder k ++ b = DOLLAR :: LBRACE :: (k ++ RBRACE :: b) := by
    simp [placeholder]
  rw [hshape]
  unfold matchPlaceholder
  simp only [and_self, if_true, ht, hd]
  cases k with
  | nil => exact absurd rfl hk
  | cons x xs => simp [placeholder]

/-- No match starts at a byte other than a dollar sign followed by an opening
brace. -/
theorem matchPlaceholder_none_of_head (c : Byte) (rest : GoString)
    (h : c ≠ DOLLAR ∨ rest.head? ≠ some LBRACE) : matchPlaceholder (c :: rest) = none := by
  unfold matchPlaceholder
  cases rest with
  | nil => rfl
  | cons c1 r =>
    have : ¬ (c = DOLLAR ∧ c1 = LBRACE) := by
      rintro ⟨h0, h1⟩
      rcases h with h | h
      · exact h h0
      · exact h (by simp [h1])
    simp only [this, if_false]

/-- No match in a text without a closing brace. -/
theorem matchPlaceholder_none_of_no_rbrace (s : GoString) (h : RBRACE ∉ s) :
    matchPlaceholder s = none := by
  unfold matchPlaceholder
  split
  · next c0 c1 rest =>
    have hd : rest.dropWhile (fun c => c != RBRACE) = [] := by
      rw [List.dropWhile_eq_nil_iff]
      intro c hc
      have : c ≠ RBRACE := fun e => h (by rw [← e]; simp [hc])
      simpa using this
    split
    · dsimp only
      rw [hd]
      split
      · next heq1 heq2 => cases heq2
      · rfl
    · rfl
  · rfl

/-- The search copies a start of the text that holds no placeholder opening,
when the text after it cannot complete an opening. -/
theorem replaceAllStringFunc_skip (repl : GoString → GoString) (a : GoString) :
    ∀ rest : GoString, ¬ OPEN <:+: a → rest.head? ≠ some LBRACE →
      replaceAllStringFunc (a ++ rest) repl = a ++ replaceAllStringFunc rest repl := by
  induction a with
  | nil => intro rest _ _; rfl
  | cons c cs ih =>
    intro rest ha hr
    have hcs : ¬ OPEN <:+: cs := fun h => ha (List.IsInfix.trans h (List.infix_cons (List.infix_refl _)))
    have hnone : matchPlaceholder (c :: (cs ++ rest)) = none := by
      apply matchPlaceholder_none_of_head
      by_cases hc : c = DOLLAR
      · right
        cases cs with
        | nil => simpa using hr
        | cons d ds =>
          intro hd
          simp only [List.cons_append, List.head?_cons, Option.some.injEq] at hd
          apply ha
          subst hc hd
          exact ⟨[], ds, by simp⟩
      · exact Or.inl hc
    rw [List.cons_append, replaceAllStringFunc_cons, hnone]
    simp only
    rw [ih rest hcs hr, List.cons_append]

/-- The search changes nothing in a text without a closing brace. -/
theorem replaceAllStringFunc_no_rbrace (repl : GoString → GoString) (t : GoString)
    (h : RBRACE ∉ t) : replaceAllStringFunc t repl = t := by
  induction t with
  | nil => rfl
  | cons c cs ih =>
    rw [replaceAllStringFunc_cons, matchPlaceholder_none_of_no_rbrace _ h]
    simp only
    rw [ih (fun hc => h (List.mem_cons_of_mem _ hc))]

/-- The search with a replacement that gives every match back changes
nothing. -/
theorem replaceAllStringFunc_same (repl : GoString → GoString) (hrepl : ∀ m, repl m = m)
    (n : Nat) : ∀ t : GoString, t.length ≤ n → replaceAllStringFunc t repl = t := by
  induction n with
  | zero =>
    intro t ht
    have : t = [] := List.length_eq_zero.1 (Nat.le_zero.1 ht)
    subst this; rfl
  | succ k ih =>
    intro t ht
    cases t with
    | nil => rfl
    | cons c cs =>
      have hcs : cs.length ≤ k := by simpa using ht
      rw [replaceAllStringFunc_cons]
      cases hm : matchPlaceholder (c :: cs) with
      | none => simp only; rw [ih cs hcs]
      | some r =>
        obtain ⟨m, after⟩ := r
        obtain ⟨he, hlen⟩ := matchPlaceholder_some _ _ _ hm
        simp only [List.length_cons] at hlen
        simp only
        rw [hrepl m, ih after (by omega), he]

/-- The key that the function literal cuts out of a placeholder is its
identifier. -/
theorem replaceMatch_placeholder (data : Row) (k : GoString) :
    replaceMatch data (placeholder k) = (data.get k).getD (placeholder k) := by
  have hkey : ((placeholder k).take ((placeholder k).length - 1)).drop 2 = k := by
    have h1 : (placeholder k).length - 1 = (OPEN ++ k).length := by simp [placeholder]
    rw [h1]
    unfold placeholder
    rw [List.take_left]
    simp
  unfold replaceMatch
  simp only [hkey]
  cases data.get k <;> rfl

/-- The leftmost placeholder: the text before it is copied, the placeholder is
replaced by the value of its identifier or left as it is, and the search goes
on after it. -/
theorem replaceTemplate_step (data : Row) (a k b : GoString)
    (ha : ¬ OPEN <:+: a) (hk : k ≠ []) (hr : RBRACE ∉ k) :
    replaceTemplate (a ++ placeholder k ++ b) data =
      a ++ (data.get k).getD (placeholder k) ++ replaceTemplate b data := by
  unfold replaceTemplate
  have hhead : (placeholder k ++ b).head? ≠ some LBRACE := by
    simp [placeholder]
  rw [List.append_assoc, replaceAllStringFunc_skip _ a _ ha hhead]
  have hshape : placeholder k ++ b = DOLLAR :: (LBRACE :: (k ++ RBRACE :: b)) := by
    simp [placeholder]
  have hm := matchPlaceholder_placeholder k b hk hr
  rw [hshape] at hm ⊢
  rw [replaceAllStringFunc_cons, hm]
  simp only
  rw [replaceMatch_placeholder, List.append_assoc]

/-- A text without a placeholder opening is returned as it is. -/
theorem replaceTemplate_no_open (data : Row) (t : GoString) (h : ¬ OPEN <:+: t) :
    replaceTemplate t data = t := by
  have := replaceAllStringFunc_skip (replaceMatch data) t [] h (by simp)
  simpa [replaceTemplate, replaceAllStringFunc_nil] using this

/-- C7: the leftmost placeholder: for every row, every text `a` without the
two bytes of a dollar sign and an opening brace in a row, every non-empty
identifier `k` without a closing brace and every text `b`, the template `a`,
placeholder of `k`, `b` renders to `a`, then the value of `k` in the row when
`k` is one of its keys and the placeholder itself when it is not, then the
rendering of `b`. -/
theorem replaceTemplate_leftmost (data : Row) (a k b : GoString)
    (ha : ¬ OPEN <:+: a) (hk : k ≠ []) (hr : RBRACE ∉ k) :
    replaceTemplate (a ++ placeholder k ++ b) data =
      a ++ (match data.get k with
            | some value => value
            | none => placeholder k) ++ replaceTemplate b data := by
  rw [replaceTemplate_step data a k b ha hk hr]
  cases data.get k <;> rfl

/-- Witness of C7: `Hello ${NAME}` with NAME in the row; the templates
`${NAME} is here` and `${NAME} ${MISSING}` are evaluated next to it. -/
theorem replaceTemplate_leftmost_witness :
    replaceTemplate (bytes "Hello " ++ placeholder (bytes "NAME") ++ [])
        [(bytes "NAME", bytes "田中太郎")] =
      bytes "Hello " ++ (match Row.get [(bytes "NAME", bytes "田中太郎")] (bytes "NAME") with
            | some value => value
            | none => placeholder (bytes "NAME")) ++
        replaceTemplate [] [(bytes "NAME", bytes "田中太郎")] ∧
    replaceTemplate (bytes "Hello $\x7bNAME\x7d") [(bytes "NAME", bytes "田中太郎")] =
      bytes "Hello 田中太郎" ∧
    replaceTemplate (bytes "$\x7bNAME\x7d is here") [(bytes "NAME", bytes "田中太郎")] =
      bytes "田中太郎 is here" ∧
    replaceTemplate (bytes "$\x7bNAME\x7d $\x7bMISSING\x7d") [(bytes "NAME", bytes "A")] =
      bytes "A $\x7bMISSING\x7d" :=
  ⟨replaceTemplate_leftmost [(bytes "NAME", bytes "田中太郎")] (bytes "Hello ") (bytes "NAME") []
    (by decide) (by decide) (by decide), by decide, by decide, by decide⟩

/-- C8: rendering with the empty row returns every template as it is,
whatever placeholders it holds. -/
theorem replaceTemplate_empty_row (t : GoString) : replaceTemplate t [] = t := by
  have hrepl : ∀ m, replaceMatch [] m = m := by
    intro m; simp [replaceMatch, Row.get]
  exact replaceAllStringFunc_same _ hrepl t.length t (Nat.le_refl _)

/-- C9: a template without a complete placeholder is returned as it is, for
every row: one that holds no dollar sign directly followed by an opening brace,
or one that holds no closing brace at all. -/
theorem replaceTemplate_no_placeholder (data : Row) (t : GoString)
    (h : ¬ OPEN <:+: t ∨ RBRACE ∉ t) : replaceTemplate t data = t := by
  rcases h with h | h
  · exact replaceTemplate_no_open data t h
  · exact replaceAllStringFunc_no_rbrace _ t h

/-- Witness of C9: the unterminated `Hello ${NAME` with NAME in the row; the
template without placeholders of the test and the empty template are evaluated
next to it. -/
theorem replaceTemplate_no_placeholder_witness :
    replaceTemplate (bytes "Hello $\x7bNAME") [(bytes "NAME", bytes "田中太郎")] =
      bytes "Hello $\x7bNAME" ∧
    replaceTemplate (bytes "curl -X GET https://api.example.com/status")
        [(bytes "NAME", bytes "田中太郎")] =
      bytes "curl -X GET https://api.example.com/status" ∧
    replaceTemplate (bytes "") [(bytes "NAME", bytes "test")] = bytes "" :=
  ⟨replaceTemplate_no_placeholder [(bytes "NAME", bytes "田中太郎")] (bytes "Hello $\x7bNAME")
    (Or.inr (by decide)), by decide, by decide⟩

/-- C10: a repeated placeholder is replaced at each occurrence from the same
row: for a row with value `v` at the key `k`, non-empty and without a closing
brace, and texts `a`, `b`, `c` without a placeholder opening, the template
`a`, placeholder of `k`, `b`, placeholder of `k`, `c` renders to `a v b v c`. -/
theorem replaceTemplate_repeated (data : Row) (k v a b c : GoString)
    (hget : data.get k = some v) (hk : k ≠ []) (hr : RBRACE ∉ k)
    (ha : ¬ OPEN <:+: a) (hb : ¬ OPEN <:+: b) (hc : ¬ OPEN <:+: c) :
    replaceTemplate (a ++ placeholder k ++ b ++ placeholder k ++ c) data =
      a ++ v ++ b ++ v ++ c := by
  have e : a ++ placeholder k ++ b ++ placeholder k ++ c =
      a ++ placeholder k ++ (b ++ placeholder k ++ c) := by simp
  rw [e, replaceTemplate_step data a k _ ha hk hr, replaceTemplate_step data b k c hb hk hr,
    replaceTemplate_no_open data c hc, hget]
  simp

/-- Witness of C10: `${N}-${N}` with N = x gives `x-x`. -/
theorem replaceTemplate_repeated_witness :
    replaceTemplate ([] ++ placeholder (bytes "N") ++ bytes "-" ++ placeholder (bytes "N") ++ [])
        [(bytes "N", bytes "x")] = [] ++ bytes "x" ++ bytes "-" ++ bytes "x" ++ [] ∧
    replaceTemplate (bytes "$\x7bN\x7d-$\x7bN\x7d") [(bytes "N", bytes "x")] = bytes "x-x" :=
  ⟨replaceTemplate_repeated [(bytes "N", bytes "x")] (bytes "N") (bytes "x") [] (bytes "-") []
    (by decide) (by decide) (by decide) (by decide) (by decide) (by decide), by decide⟩

/-- The rendering of the empty template. -/
theorem replaceTemplate_nil (data : Row) : replaceTemplate [] data = [] := rfl

/-- C11: substitution is single-pass: for a row with value `v` at the key
`k`, non-empty and without a closing brace, the placeholder of `k` alone
renders to exactly `v`, whatever placeholders `v` holds; the value is not
searched again. -/
theorem replaceTemplate_single_pass (data : Row) (k v : GoString)
    (hget : data.get k = some v) (hk : k ≠ []) (hr : RBRACE ∉ k) :
    replaceTemplate (placeholder k) data = v := by
  have h := replaceTemplate_step data [] k [] (by decide) hk hr
  simp only [List.nil_append, List.append_nil, replaceTemplate_nil, hget, Option.getD_some] at h
  exact h

/-- Witness of C11: with the row A = `${B}`, B = `x`, the template `${A}`
renders to the text `${B}`, not to `x`. -/
theorem replaceTemplate_single_pass_witness :
    replaceTemplate (placeholder (bytes "A"))
        [(bytes "A", bytes "$\x7bB\x7d"), (bytes "B", bytes "x")] = bytes "$\x7bB\x7d" ∧
    placeholder (bytes "A") = bytes "$\x7bA\x7d" ∧
    replaceTemplate (bytes "$\x7bA\x7d")
        [(bytes "A", bytes "$\x7bB\x7d"), (bytes "B", bytes "x")] ≠ bytes "x" :=
  ⟨replaceTemplate_single_pass [(bytes "A", bytes "$\x7bB\x7d"), (bytes "B", bytes "x")]
    (bytes "A") (bytes "$\x7bB\x7d") (by decide) (by decide) (by decide), by decide, by decide⟩

/-- The expression does not match at a placeholder opening directly followed
by a closing brace. -/
theorem matchPlaceholder_empty_name (b : GoString) :
    matchPlaceholder (DOLLAR :: LBRACE :: RBRACE :: b) = none := by
  simp [matchPlaceholder]

/-- C12: an empty identifier is never a placeholder: for every row, one with
the empty string as a key included, and texts `a` and `b` without a
placeholder opening, the template `a`, dollar sign, opening brace, closing
brace, `b` is returned as it is. -/
theorem replaceTemplate_empty_identifier (data : Row) (a b : GoString)
    (ha : ¬ OPEN <:+: a) (hb : ¬ OPEN <:+: b) :
    replaceTemplate (a ++ OPEN ++ [RBRACE] ++ b) data = a ++ OPEN ++ [RBRACE] ++ b := by
  have hshape : a ++ OPEN ++ [RBRACE] ++ b = a ++ (DOLLAR :: LBRACE :: RBRACE :: b) := by simp
  have htail : ¬ OPEN <:+: LBRACE :: RBRACE :: b := by
    intro h
    rcases List.infix_cons_iff.1 h with h1 | h1
    · simp at h1
    · rcases List.infix_cons_iff.1 h1 with h2 | h2
      · simp at h2
      · exact hb h2
  rw [hshape]
  unfold replaceTemplate
  rw [replaceAllStringFunc_skip _ a _ ha (by simp), replaceAllStringFunc_cons,
    matchPlaceholder_empty_name]
  simp only
  have := replaceAllStringFunc_skip (replaceMatch data) (LBRACE :: RBRACE :: b) [] htail (by simp)
  rw [List.append_nil, replaceAllStringFunc_nil, List.append_nil] at this
  rw [this]

/-- Witness of C12: `Hello ${}` with the row that has the empty key stays
`Hello ${}`. -/
theorem replaceTemplate_empty_identifier_witness :
    replaceTemplate (bytes "Hello " ++ OPEN ++ [RBRACE] ++ []) [(bytes "", bytes "test")] =
      bytes "Hello " ++ OPEN ++ [RBRACE] ++ [] ∧
    bytes "Hello " ++ OPEN ++ [RBRACE] ++ [] = bytes "Hello $\x7b\x7d" :=
  ⟨replaceTemplate_empty_identifier [(bytes "", bytes "test")] (bytes "Hello ") []
    (by decide) (by decide), by decide⟩

/-! ### The flag loop of the interpreter -/

/-- The bytes of the method flag. -/
theorem bytes_flagX : bytes "-X" = [45, 88] := by decide

/-- The bytes of the header flag. -/
theorem bytes_flagH : bytes "-H" = [45, 72] := by decide

/-- The bytes of the body flag. -/
theorem bytes_flagD : bytes "-d" = [45, 100] := by decide

/-- The bytes of the url start. -/
theorem bytes_http : bytes "http" = [104, 116, 116, 112] := by decide

/-- A token that starts with `http` is none of the flags. -/
theorem isFlag_of_http (u : GoString) (hu : bytes "http" <+: u) : isFlag u = false := by
  obtain ⟨t, rfl⟩ := hu
  simp [isFlag, bytes_flagX, bytes_flagH, bytes_flagD, bytes_http]

/-- The library call `HasPrefix` says whether the text starts so. -/
theorem HasPrefix_iff (s pre : GoString) : HasPrefix s pre = true ↔ pre <+: s := by
  simp [HasPrefix]

/-- The method flag takes the next token as the method. -/
theorem flagLoop_X (st : Flags) (v : GoString) (rest : List GoString) :
    flagLoop st (bytes "-X" :: v :: rest) = flagLoop { st with method := v } rest := by
  simp [flagLoop]

/-- The header flag appends the next token to the raw header values. -/
theorem flagLoop_H (st : Flags) (v : GoString) (rest : List GoString) :
    flagLoop st (bytes "-H" :: v :: rest) =
      flagLoop { st with headers := st.headers ++ [v] } rest := by
  simp [flagLoop, bytes_flagX, bytes_flagH]

/-- The body flag takes the next token as the body. -/
theorem flagLoop_d (st : Flags) (v : GoString) (rest : List GoString) :
    flagLoop st (bytes "-d" :: v :: rest) = flagLoop { st with body := v } rest := by
  simp [flagLoop, bytes_flagX, bytes_flagH, bytes_flagD]

/-- A flag that is the last token does nothing. -/
theorem flagLoop_lone (st : Flags) (p : GoString) (hp : isFlag p = true) :
    flagLoop st [p] = st := by
  simp only [isFlag, Bool.or_eq_true, decide_eq_true_eq] at hp
  rcases hp with (rfl | rfl) | rfl <;> simp [flagLoop, bytes_flagX, bytes_flagH, bytes_flagD]

/-- A token that is no flag is kept as the url when it starts with `http` and
is passed over when it does not. -/
theorem flagLoop_bare (st : Flags) (p : GoString) (rest : List GoString)
    (hp : isFlag p = false) :
    flagLoop st (p :: rest) =
      flagLoop (if HasPrefix p (bytes "http") then { st with url := p } else st) rest := by
  simp only [isFlag, Bool.or_eq_false_iff, decide_eq_false_iff_not] at hp
  obtain ⟨⟨h1, h2⟩, h3⟩ := hp
  by_cases h : HasPrefix p (bytes "http") = true
  · cases rest <;> simp [flagLoop, h1, h2, h3, h]
  · cases rest <;> simp [flagLoop, h1, h2, h3, h]

/-- A flag is one of the three flags. -/
theorem isFlag_iff (p : GoString) :
    isFlag p = true ↔ p = bytes "-X" ∨ p = bytes "-H" ∨ p = bytes "-d" := by
  simp [isFlag, or_assoc]

/-- The last element of a list that starts with `v`, or a default: the
default plays no part. -/
theorem getLast?_getD_cons (v d : GoString) (l : List GoString) :
    (v :: l).getLast?.getD d = l.getLast?.getD v := by
  rw [List.getLast?_cons]; simp

/-- The reading of a flag and its value. -/
theorem items_flag (p v : GoString) (rest : List GoString) (hp : isFlag p = true) :
    items (p :: v :: rest) = Item.flag p v :: items rest := by
  simp [items, hp]

/-- The reading of a flag that is the last token. -/
theorem items_lone (p : GoString) (hp : isFlag p = true) : items [p] = [Item.lone p] := by
  simp [items, hp]

/-- The reading of a bare token. -/
theorem items_bare (p : GoString) (rest : List GoString) (hp : isFlag p = false) :
    items (p :: rest) = Item.bare p :: items rest := by
  cases rest <;> simp [items, hp]

/-- The values of a flag after a flag and its value. -/
theorem flagValues_flag (f p v : GoString) (rest : List GoString) (hp : isFlag p = true) :
    flagValues f (p :: v :: rest) =
      if p = f then v :: flagValues f rest else flagValues f rest := by
  by_cases h : p = f
  · subst h; simp [flagValues, items_flag p v rest hp]
  · simp [flagValues, items_flag p v rest hp, h]

/-- A flag that is the last token has no value. -/
theorem flagValues_lone (f p : GoString) (hp : isFlag p = true) : flagValues f [p] = [] := by
  simp [flagValues, items_lone p hp]

/-- A bare token is not a value of a flag. -/
theorem flagValues_bare (f p : GoString) (rest : List GoString) (hp : isFlag p = false) :
    flagValues f (p :: rest) = flagValues f rest := by
  simp [flagValues, items_bare p rest hp]

/-- The value of a flag is not a url token. -/
theorem urlTokens_flag (p v : GoString) (rest : List GoString) (hp : isFlag p = true) :
    urlTokens (p :: v :: rest) = urlTokens rest := by
  simp [urlTokens, items_flag p v rest hp]

/-- A flag that is the last token is not a url token. -/
theorem urlTokens_lone (p : GoString) (hp : isFlag p = true) : urlTokens [p] = [] := by
  simp [urlTokens, items_lone p hp]

/-- A bare token is a url token when it starts with `http`. -/
theorem urlTokens_bare (p : GoString) (rest : List GoString) (hp : isFlag p = false) :
    urlTokens (p :: rest) =
      if HasPrefix p (bytes "http") then p :: urlTokens rest else urlTokens rest := by
  by_cases h : HasPrefix p (bytes "http") = true <;> simp [urlTokens, items_bare p rest hp, h]

/-- The empty walk waits for nothing. -/
theorem waiting_nil : waiting [] = false := rfl

/-- After a flag and its value the walk waits as the rest does. -/
theorem waiting_flag (p v : GoString) (rest : List GoString) (hp : isFlag p = true) :
    waiting (p :: v :: rest) = waiting rest := by
  unfold waiting
  rw [items_flag p v rest hp]
  cases items rest <;> simp

/-- A flag that is the last token is left waiting. -/
theorem waiting_lone (p : GoString) (hp : isFlag p = true) : waiting [p] = true := by
  simp [waiting, items_lone p hp]

/-- After a bare token the walk waits as the rest does. -/
theorem waiting_bare (p : GoString) (rest : List GoString) (hp : isFlag p = false) :
    waiting (p :: rest) = waiting rest := by
  unfold waiting
  rw [items_bare p rest hp]
  cases items rest <;> simp

/-- The flag loop in the terms of the specification: the method and the body
are the values of the last method flag and of the last body flag, the url is
the last url token, each variable keeping its content when there is none, and
the raw header values are those of the header flags, appended in order. -/
theorem flagLoop_eq (n : Nat) :
    ∀ (ts : List GoString), ts.length ≤ n → ∀ st : Flags,
      flagLoop st ts =
        ⟨(flagValues (bytes "-X") ts).getLastD st.method, (urlTokens ts).getLastD st.url,
          (flagValues (bytes "-d") ts).getLastD st.body,
          st.headers ++ flagValues (bytes "-H") ts⟩ := by
  induction n with
  | zero =>
    intro ts hts st
    have : ts = [] := List.length_eq_zero.1 (Nat.le_zero.1 hts)
    subst this
    simp [flagLoop, flagValues, urlTokens, items, List.getLastD]
  | succ k ih =>
    intro ts hts st
    cases ts with
    | nil => simp [flagLoop, flagValues, urlTokens, items, List.getLastD]
    | cons p rest =>
      by_cases hp : isFlag p = true
      · cases rest with
        | nil =>
          rw [flagLoop_lone st p hp, flagValues_lone _ p hp, flagValues_lone _ p hp,
            flagValues_lone _ p hp, urlTokens_lone p hp]
          simp [List.getLastD]
        | cons v r =>
          have hr : r.length ≤ k := by simp at hts; omega
          rw [flagValues_flag _ p v r hp, flagValues_flag _ p v r hp, flagValues_flag _ p v r hp,
            urlTokens_flag p v r hp]
          rcases (isFlag_iff p).1 hp with rfl | rfl | rfl
          · rw [flagLoop_X, ih r hr]
            simp [bytes_flagX, bytes_flagH, bytes_flagD, getLast?_getD_cons]
          · rw [flagLoop_H, ih r hr]
            simp [bytes_flagX, bytes_flagH, bytes_flagD, getLast?_getD_cons]
          · rw [flagLoop_d, ih r hr]
            simp [bytes_flagX, bytes_flagH, bytes_flagD, getLast?_getD_cons]
      · have hp2 : isFlag p = false := by simpa using hp
        have hr : rest.length ≤ k := by simpa using hts
        rw [flagLoop_bare st p rest hp2, ih rest hr, flagValues_bare _ p rest hp2,
          flagValues_bare _ p rest hp2, flagValues_bare _ p rest hp2, urlTokens_bare p rest hp2]
        by_cases h : HasPrefix p (bytes "http") = true
        · simp [h, getLast?_getD_cons]
        · simp [h]

/-- The flag loop over a list that does not end on a waiting flag, followed by
more tokens, is the loop over the list and then over the tokens after it. -/
theorem flagLoop_append (n : Nat) :
    ∀ (ts1 : List GoString), ts1.length ≤ n → waiting ts1 = false →
      ∀ (st : Flags) (ts2 : List GoString),
        flagLoop st (ts1 ++ ts2) = flagLoop (flagLoop st ts1) ts2 := by
  induction n with
  | zero =>
    intro ts1 hts _ st ts2
    have : ts1 = [] := List.length_eq_zero.1 (Nat.le_zero.1 hts)
    subst this
    simp [flagLoop]
  | succ k ih =>
    intro ts1 hts hw st ts2
    cases ts1 with
    | nil => simp [flagLoop]
    | cons p rest =>
      by_cases hp : isFlag p = true
      · cases rest with
        | nil => rw [waiting_lone p hp] at hw; cases hw
        | cons v r =>
          have hr : r.length ≤ k := by simp at hts; omega
          rw [waiting_flag p v r hp] at hw
          rcases (isFlag_iff p).1 hp with rfl | rfl | rfl
          · simp only [List.cons_append, flagLoop_X]; exact ih r hr hw _ _
          · simp only [List.cons_append, flagLoop_H]; exact ih r hr hw _ _
          · simp only [List.cons_append, flagLoop_d]; exact ih r hr hw _ _
      · have hp2 : isFlag p = false := by simpa using hp
        have hr : rest.length ≤ k := by simpa using hts
        rw [waiting_bare p rest hp2] at hw
        rw [List.cons_append, flagLoop_bare st p _ hp2, flagLoop_bare st p _ hp2]
        exact ih rest hr hw _ _

/-! ### The interpreter on a token list -/

/-- The bytes of the command name. -/
theorem bytes_curl : bytes "curl" = [99, 117, 114, 108] := by decide

/-- The bytes of the default method. -/
theorem bytes_GET : bytes "GET" = [71, 69, 84] := by decide

/-- A valid token list is interpreted without error. -/
theorem interpret_valid (cmd : GoString) (parts : List GoString) (h : ValidTokens parts) :
    interpret cmd parts = .ok (interpretFlags parts) := by
  obtain ⟨h1, h2⟩ := h
  have : ¬ (parts.length < 2 ∨ parts.head? ≠ some (bytes "curl")) := by
    rintro (h | h)
    · omega
    · exact h h2
  simp only [interpret, this, if_false]

/-- A token list that is not valid is refused with the invalid-command error. -/
theorem interpret_invalid (cmd : GoString) (parts : List GoString) (h : ¬ ValidTokens parts) :
    interpret cmd parts = .error (bytes "invalid curl command: " ++ cmd) := by
  have : parts.length < 2 ∨ parts.head? ≠ some (bytes "curl") := by
    by_contra hc
    apply h
    constructor
    · by_contra h1; exact hc (Or.inl (by omega))
    · by_contra h2; exact hc (Or.inr h2)
  simp only [interpret, this, if_true]

/-- The variables in the terms of the specification. -/
theorem interpretFlags_eq (parts : List GoString) :
    interpretFlags parts =
      ⟨(match (flagValues (bytes "-X") (parts.drop 1)).getLast? with
        | none => bytes "GET"
        | some v => if v = [] then bytes "GET" else v),
        (urlTokens (parts.drop 1)).getLast?.getD [],
        (flagValues (bytes "-d") (parts.drop 1)).getLast?.getD [],
        flagValues (bytes "-H") (parts.drop 1)⟩ := by
  unfold interpretFlags
  rw [flagLoop_eq _ _ (Nat.le_refl _)]
  simp only [List.getLastD_eq_getLast?, List.nil_append]
  cases hX : (flagValues (bytes "-X") (parts.drop 1)).getLast? with
  | none => simp
  | some v =>
    by_cases hv : v = []
    · simp [hv]
    · simp [hv]

/-- C13: the tokens `curl`, `-X`, `m`, `-d`, `b`, `u`, with `m` non-empty and
`u` starting with `http`, are interpreted without the invalid-command error,
as method `m`, body `b`, url `u` and no header value. -/
theorem interpret_method_body_url (cmd m b u : GoString)
    (hm : m ≠ []) (hu : bytes "http" <+: u) :
    interpret cmd [bytes "curl", bytes "-X", m, bytes "-d", b, u] = .ok ⟨m, u, b, []⟩ ∧
    setHeaders [] = [] := by
  refine ⟨?_, rfl⟩
  have hv : ValidTokens [bytes "curl", bytes "-X", m, bytes "-d", b, u] := ⟨by simp, rfl⟩
  rw [interpret_valid cmd _ hv]
  have hpre : HasPrefix u (bytes "http") = true := (HasPrefix_iff _ _).2 hu
  simp only [interpretFlags, List.drop_succ_cons, List.drop_zero]
  rw [flagLoop_X, flagLoop_d, flagLoop_bare _ u [] (isFlag_of_http u hu)]
  simp [hpre, flagLoop, hm]

/-- Witness of C13: the tokens `curl`, `-X`, `POST`, `-d`, `{"a":1}`,
`https://x`. -/
theorem interpret_method_body_url_witness :
    interpret (bytes "curl -X POST -d '\x7b\"a\":1\x7d' https://x")
        [bytes "curl", bytes "-X", bytes "POST", bytes "-d", bytes "\x7b\"a\":1\x7d",
          bytes "https://x"] =
      .ok ⟨bytes "POST", bytes "https://x", bytes "\x7b\"a\":1\x7d", []⟩ ∧
    setHeaders [] = [] :=
  interpret_method_body_url _ (bytes "POST") (bytes "\x7b\"a\":1\x7d") (bytes "https://x")
    (by decide) (by decide)

/-- The first byte of a text that starts with a non-empty text. -/
theorem head?_append_of_ne_nil (a x : GoString) (h : a ≠ []) : (a ++ x).head? = a.head? := by
  cases a with
  | nil => exact absurd rfl h
  | cons c cs => rfl

/-- The text of the invalid-command error starts with the letter i. -/
theorem invalid_head (x : GoString) :
    (bytes "invalid curl command: " ++ x).head? = some 105 := by
  rw [head?_append_of_ne_nil _ _ (by decide)]; decide

/-- No other error of `executeRequest` has the text of the invalid-command
error: the texts start with another letter. -/
theorem other_errors_ne_invalid (x y : GoString) :
    bytes "failed to parse curl command: " ++ x ≠ bytes "invalid curl command: " ++ y ∧
    bytes "failed to create request: " ++ x ≠ bytes "invalid curl command: " ++ y ∧
    bytes "request failed: " ++ x ≠ bytes "invalid curl command: " ++ y ∧
    bytes "failed to read response: " ++ x ≠ bytes "invalid curl command: " ++ y := by
  refine ⟨?_, ?_, ?_, ?_⟩ <;>
  · intro h
    have h2 := congrArg List.head? h
    rw [invalid_head, head?_append_of_ne_nil _ _ (by decide)] at h2
    revert h2
    decide

/-- The outcome of sending a request is not the invalid-command error. -/
theorem sendRequest_ne_invalid (lib : HttpLibrary) (req : Request) (cmd : GoString) :
    sendRequest lib req ≠ .error (bytes "invalid curl command: " ++ cmd) := by
  unfold sendRequest
  cases lib.clientDo req with
  | error err =>
    simp only [ne_eq, Except.error.injEq]
    exact (other_errors_ne_invalid err cmd).2.2.1
  | ok resp =>
    dsimp only
    split
    · next err _ =>
      simp only [ne_eq, Except.error.injEq]
      exact (other_errors_ne_invalid err cmd).2.2.2
    · simp

/-- C14: `executeRequest` fails with the invalid-command error, whatever the
library does and so before any request is built, exactly when the command is
tokenized without error into fewer than two tokens or into tokens the first
of which is not `curl`. -/
theorem executeRequest_invalid_iff (lib : HttpLibrary) (cmd : GoString) :
    executeRequest lib cmd = .error (bytes "invalid curl command: " ++ cmd) ↔
      ∃ parts, splitCurlCommand cmd = .ok parts ∧
        (parts.length < 2 ∨ parts.head? ≠ some (bytes "curl")) := by
  unfold executeRequest
  cases hs : splitCurlCommand cmd with
  | error err =>
    constructor
    · intro h
      simp only [Except.error.injEq] at h
      exact absurd h (other_errors_ne_invalid (bytes err) cmd).1
    · rintro ⟨parts, hp, _⟩
      cases hp
  | ok parts =>
    simp only [Except.ok.injEq, exists_eq_left']
    by_cases hv : ValidTokens parts
    · rw [interpret_valid cmd parts hv]
      have hno : ¬ (parts.length < 2 ∨ parts.head? ≠ some (bytes "curl")) := by
        rintro (h | h)
        · exact absurd hv.1 (by omega)
        · exact h hv.2
      simp only [hno, iff_false]
      cases lib.newRequestError (interpretFlags parts).method (interpretFlags parts).url
          (reqBody (interpretFlags parts).body) with
      | some err =>
        simp only [Except.error.injEq]
        exact (other_errors_ne_invalid err cmd).2.1
      | none => exact sendRequest_ne_invalid lib _ cmd
    · rw [interpret_invalid cmd parts hv]
      simp only [true_iff]
      by_contra hc
      apply hv
      constructor
      · by_contra h1; exact hc (Or.inl (by omega))
      · by_contra h2; exact hc (Or.inr h2)

/-- The commands `curl`, the empty one and `wget https://x` fail with the
invalid-command error, and the command `"curl" https://x` does not. -/
theorem executeRequest_invalid_examples (lib : HttpLibrary) :
    executeRequest lib (bytes "curl") = .error (bytes "invalid curl command: " ++ bytes "curl") ∧
    executeRequest lib (bytes "") = .error (bytes "invalid curl command: " ++ bytes "") ∧
    executeRequest lib (bytes "wget https://x") =
      .error (bytes "invalid curl command: " ++ bytes "wget https://x") ∧
    executeRequest lib (bytes "\"curl\" https://x") ≠
      .error (bytes "invalid curl command: " ++ bytes "\"curl\" https://x") := by
  refine ⟨rfl, rfl, rfl, ?_⟩
  have hs : splitCurlCommand (bytes "\"curl\" https://x") =
      .ok [bytes "curl", bytes "https://x"] := by decide
  have hi : interpret (bytes "\"curl\" https://x") [bytes "curl", bytes "https://x"] =
      .ok ⟨bytes "GET", bytes "https://x", [], []⟩ := by decide
  unfold executeRequest
  rw [hs]
  simp only [hi]
  cases lib.newRequestError (bytes "GET") (bytes "https://x") (reqBody []) with
  | some err =>
    simp only [ne_eq, Except.error.injEq]
    exact (other_errors_ne_invalid err _).2.1
  | none => exact sendRequest_ne_invalid lib _ _

/-- The library call `SplitN` on a text without the separator: the text
alone. -/
theorem SplitN2_none (s : GoString) (sep : Byte) (h : sep ∉ s) : SplitN2 s sep = [s] := by
  have hd : s.dropWhile (fun c => c != sep) = [] := by
    rw [List.dropWhile_eq_nil_iff]
    intro c hc
    have : c ≠ sep := fun e => h (e ▸ hc)
    simpa using this
  simp [SplitN2, hd]

/-- The library call `SplitN` cuts at the first separator. -/
theorem SplitN2_cut (a b : GoString) (sep : Byte) (h : sep ∉ a) :
    SplitN2 (a ++ [sep] ++ b) sep = [a, b] := by
  have hp : ∀ c ∈ a, (fun c : Byte => c != sep) c = true := by
    intro c hc
    have : c ≠ sep := fun e => h (e ▸ hc)
    simpa using this
  have ht : (a ++ sep :: b).takeWhile (fun c => c != sep) = a := by
    rw [List.takeWhile_append_of_pos hp]; simp
  have hd : (a ++ sep :: b).dropWhile (fun c => c != sep) = sep :: b := by
    rw [List.dropWhile_append_of_pos hp]; simp
  have hshape : a ++ [sep] ++ b = a ++ sep :: b := by simp
  rw [hshape]
  simp only [SplitN2, hd, ht]

/-- The header loop over one more raw value. -/
theorem setHeaders_concat (hs : List GoString) (h : GoString) :
    setHeaders (hs ++ [h]) =
      match parseHeader h with
      | some (name, value) => (setHeaders hs).Set name value
      | none => setHeaders hs := by
  simp only [setHeaders, List.foldl_append, List.foldl_cons, List.foldl_nil]

/-- C15: header parsing: a raw value without a colon gives no entry; a raw
value with a colon gives the call of `Header.Set` with the text before the
first colon as the name and all the text after that colon, later colons
included, as the value, each trimmed of its surrounding white space. -/
theorem parseHeader_spec (h : GoString) :
    (COLON ∉ h → parseHeader h = none) ∧
    (∀ a b : GoString, h = a ++ [COLON] ++ b → COLON ∉ a →
      parseHeader h = some (TrimSpace a, TrimSpace b)) ∧
    (∀ hs : List GoString,
      setHeaders (hs ++ [h]) =
        match parseHeader h with
        | some (name, value) => (setHeaders hs).Set name value
        | none => setHeaders hs) := by
  refine ⟨?_, ?_, fun hs => setHeaders_concat hs h⟩
  · intro hc
    simp [parseHeader, SplitN2_none h COLON hc]
  · intro a b e ha
    subst e
    unfold parseHeader
    rw [SplitN2_cut a b COLON ha]

/-- Witness of C15: `NoColon` gives nothing; the value
` Authorization :  Bearer a:b ` gives the name `Authorization` and the value
`Bearer a:b`. -/
theorem parseHeader_spec_witness :
    parseHeader (bytes "NoColon") = none ∧
    parseHeader (bytes " Authorization :  Bearer a:b ") =
      some (bytes "Authorization", bytes "Bearer a:b") ∧
    parseHeader (bytes " Authorization " ++ [COLON] ++ bytes "  Bearer a:b ") =
      some (TrimSpace (bytes " Authorization "), TrimSpace (bytes "  Bearer a:b ")) ∧
    setHeaders [bytes " Authorization :  Bearer a:b "] =
      [(bytes "Authorization", [bytes "Bearer a:b"])] :=
  ⟨(parseHeader_spec (bytes "NoColon")).1 (by decide), by decide,
    (parseHeader_spec _).2.1 (bytes " Authorization ") (bytes "  Bearer a:b ") rfl (by decide),
    by decide⟩

/-! ### The header of the request -/

/-- Taking the entries of one key away leaves the other keys as they are. -/
theorem lookup_filter_ne (H : Header) (k c : GoString) (h : k ≠ c) :
    (H.filter (fun e => e.1 != c)).lookup k = H.lookup k := by
  induction H with
  | nil => rfl
  | cons e es ih =>
    obtain ⟨a, b⟩ := e
    by_cases hac : a = c
    · subst hac
      have hka : (k == a) = false := by simpa using h
      simp [List.filter_cons, List.lookup_cons, hka, ih]
    · have : (a != c) = true := by simpa using hac
      simp only [List.filter_cons, this, if_true, List.lookup_cons, ih]

/-- Taking the entries of one key away leaves none of that key. -/
theorem lookup_filter_self (H : Header) (c : GoString) :
    (H.filter (fun e => e.1 != c)).lookup c = none := by
  rw [List.lookup_eq_none_iff]
  intro p hp
  have := (List.mem_filter.1 hp).2
  simp only [bne_iff_ne, ne_eq] at this ⊢
  exact fun e => this e.symm

/-- The parsed header values of one more raw value. -/
theorem filterMap_parseHeader_concat (hs : List GoString) (h : GoString) :
    (hs ++ [h]).filterMap parseHeader =
      hs.filterMap parseHeader ++ (match parseHeader h with
        | some e => [e]
        | none => []) := by
  rw [List.filterMap_append]
  cases hp : parseHeader h <;> simp [List.filterMap_cons, hp]

/-- The keys of the header of the request are pairwise distinct. -/
theorem setHeaders_nodup (hs : List GoString) : ((setHeaders hs).map Prod.fst).Nodup := by
  induction hs using List.reverseRecOn with
  | nil => simp [setHeaders]
  | append_singleton l h ih =>
    rw [setHeaders_concat]
    cases hp : parseHeader h with
    | none => exact ih
    | some e =>
      obtain ⟨n, v⟩ := e
      simp only [Header.Set, List.map_append, List.map_cons, List.map_nil]
      refine List.Nodup.append ?_ (List.nodup_singleton _) ?_
      · exact (ih.sublist ((List.filter_sublist _).map _))
      · intro k hk1 hk2
        rw [List.mem_singleton] at hk2
        subst hk2
        obtain ⟨e, he, hek⟩ := List.mem_map.1 hk1
        have := (List.mem_filter.1 he).2
        simp only [bne_iff_ne, ne_eq] at this
        exact this hek

/-- The header of the request holds, for each key, the value of the last raw
value whose canonical name is the key. -/
theorem setHeaders_lookup (hs : List GoString) (k : GoString) :
    (setHeaders hs).lookup k =
      (((hs.filterMap parseHeader).filter
        (fun e => CanonicalMIMEHeaderKey e.1 = k)).getLast?).map (fun e => [e.2]) := by
  induction hs using List.reverseRecOn with
  | nil => simp [setHeaders]
  | append_singleton l h ih =>
    rw [setHeaders_concat, filterMap_parseHeader_concat]
    cases hp : parseHeader h with
    | none => simpa using ih
    | some e =>
      obtain ⟨n, v⟩ := e
      simp only [Header.Set, List.lookup_append, List.filter_append]
      by_cases hk : CanonicalMIMEHeaderKey n = k
      · subst hk
        simp [lookup_filter_self, List.filter_cons, List.getLast?_concat]
      · have hk2 : k ≠ CanonicalMIMEHeaderKey n := fun e => hk e.symm
        have hb : (k == CanonicalMIMEHeaderKey n) = false := by simpa using hk2
        rw [lookup_filter_ne _ _ _ hk2, ih]
        simp [List.filter_cons, hk, List.lookup_cons, hb]

/-- When the canonical names of the raw values are pairwise distinct the
header of the request holds one entry for each raw value with a colon, in the
order of the raw values. -/
theorem setHeaders_distinct (hs : List GoString)
    (hd : ((hs.filterMap parseHeader).map (fun e => CanonicalMIMEHeaderKey e.1)).Nodup) :
    setHeaders hs =
      (hs.filterMap parseHeader).map (fun e => (CanonicalMIMEHeaderKey e.1, [e.2])) := by
  induction hs using List.reverseRecOn with
  | nil => simp [setHeaders]
  | append_singleton l h ih =>
    rw [setHeaders_concat, filterMap_parseHeader_concat]
    rw [filterMap_parseHeader_concat] at hd
    cases hp : parseHeader h with
    | none =>
      rw [hp] at hd
      simp only [List.append_nil] at hd ⊢
      exact ih hd
    | some e =>
      obtain ⟨n, v⟩ := e
      rw [hp] at hd
      simp only [List.map_append, List.map_cons, List.map_nil] at hd ⊢
      have hl := (List.nodup_append.1 hd).1
      have hnot : CanonicalMIMEHeaderKey n ∉
          (l.filterMap parseHeader).map (fun e => CanonicalMIMEHeaderKey e.1) := by
        intro hmem
        exact (List.nodup_append.1 hd).2.2 hmem (List.mem_singleton_self _)
      rw [Header.Set, ih hl]
      congr 1
      rw [List.filter_eq_self]
      intro a ha
      obtain ⟨e, he, rfl⟩ := List.mem_map.1 ha
      simp only [bne_iff_ne, ne_eq]
      intro heq
      exact hnot (List.mem_map.2 ⟨e, he, heq⟩)

/-- The flag loop over header flags and a url: the raw values are appended in
order and the url is kept. -/
theorem flagLoop_headerTokens (hs : List GoString) (u : GoString) (hu : bytes "http" <+: u) :
    ∀ st : Flags,
      flagLoop st ((hs.map (fun h => [bytes "-H", h])).flatten ++ [u]) =
        ⟨st.method, u, st.body, st.headers ++ hs⟩ := by
  induction hs with
  | nil =>
    intro st
    have hpre : HasPrefix u (bytes "http") = true := (HasPrefix_iff _ _).2 hu
    simp only [List.map_nil, List.flatten_nil, List.nil_append, List.append_nil]
    rw [flagLoop_bare st u [] (isFlag_of_http u hu)]
    simp [hpre, flagLoop]
  | cons h rest ih =>
    intro st
    simp only [List.map_cons, List.flatten_cons, List.cons_append, List.nil_append]
    rw [flagLoop_H, ih]
    simp

/-- The request that a valid command leads to, when the library accepts the
arguments of `http.NewRequest`. -/
theorem executeRequest_valid (lib : HttpLibrary) (cmd : GoString) (parts : List GoString)
    (hs : splitCurlCommand cmd = .ok parts) (hv : ValidTokens parts) :
    executeRequest lib cmd =
      match lib.newRequestError (interpretFlags parts).method (interpretFlags parts).url
          (reqBody (interpretFlags parts).body) with
      | some err => .error (bytes "failed to create request: " ++ err)
      | none => sendRequest lib ⟨(interpretFlags parts).method, (interpretFlags parts).url,
          reqBody (interpretFlags parts).body, setHeaders (interpretFlags parts).headers⟩ := by
  unfold executeRequest
  rw [hs]
  simp only [interpret_valid cmd parts hv]

/-- The token list of a command with header flags is valid. -/
theorem headerTokens_valid (hs : List GoString) (u : GoString) :
    ValidTokens (headerTokens hs u) := by
  constructor
  · simp [headerTokens]
  · rfl

/-- The variables of a command with header flags only. -/
theorem interpretFlags_headerTokens (hs : List GoString) (u : GoString)
    (hu : bytes "http" <+: u) :
    interpretFlags (headerTokens hs u) = ⟨bytes "GET", u, [], hs⟩ := by
  simp only [interpretFlags, headerTokens, List.drop_succ_cons, List.drop_zero]
  rw [flagLoop_headerTokens hs u hu]
  simp

/-- C16, as amended: for the tokens `curl`, `-H`, `h1`, ..., `-H`, `hn`, `u`
with `u` starting with `http`, the header flags are collected in flag order
and the header of the request is made by `Header.Set` of each value with a
colon, in that order: its keys are pairwise distinct, each key holds the value
of the last `hi` of that canonical name, and when the canonical names are
pairwise distinct it holds one entry for each `hi` with a colon, in flag
order. -/
theorem interpret_headerTokens (cmd : GoString) (hs : List GoString) (u : GoString)
    (hu : bytes "http" <+: u) :
    interpret cmd (headerTokens hs u) = .ok ⟨bytes "GET", u, [], hs⟩ ∧
    (∀ lib : HttpLibrary, splitCurlCommand cmd = .ok (headerTokens hs u) →
      lib.newRequestError (bytes "GET") u none = none →
      executeRequest lib cmd = sendRequest lib ⟨bytes "GET", u, none, setHeaders hs⟩) ∧
    ((setHeaders hs).map Prod.fst).Nodup ∧
    (∀ k : GoString, (setHeaders hs).lookup k =
      (((hs.filterMap parseHeader).filter
        (fun e => CanonicalMIMEHeaderKey e.1 = k)).getLast?).map (fun e => [e.2])) ∧
    (((hs.filterMap parseHeader).map (fun e => CanonicalMIMEHeaderKey e.1)).Nodup →
      setHeaders hs =
        (hs.filterMap parseHeader).map (fun e => (CanonicalMIMEHeaderKey e.1, [e.2]))) := by
  refine ⟨?_, ?_, setHeaders_nodup hs, setHeaders_lookup hs, setHeaders_distinct hs⟩
  · rw [interpret_valid cmd _ (headerTokens_valid hs u), interpretFlags_headerTokens hs u hu]
  · intro lib hsplit hnew
    rw [executeRequest_valid lib cmd _ hsplit (headerTokens_valid hs u),
      interpretFlags_headerTokens hs u hu]
    simp only [reqBody, ne_eq, not_true_eq_false, if_false, hnew]

/-- Witness of C16, as amended: two header flags of different names, then two
of the same name. -/
theorem interpret_headerTokens_witness :
    (interpret (bytes "curl -H 'A: 1' -H 'B: 2' https://x")
        (headerTokens [bytes "A: 1", bytes "B: 2"] (bytes "https://x")) =
        .ok ⟨bytes "GET", bytes "https://x", [], [bytes "A: 1", bytes "B: 2"]⟩) ∧
    setHeaders [bytes "A: 1", bytes "B: 2"] =
      [(bytes "A", [bytes "1"]), (bytes "B", [bytes "2"])] ∧
    (setHeaders [bytes "A: 1", bytes "a: 2"]).lookup (bytes "A") = some [bytes "2"] :=
  ⟨(interpret_headerTokens _ [bytes "A: 1", bytes "B: 2"] (bytes "https://x") (by decide)).1,
    by decide, by decide⟩

/-- Counterexample to C16 as stated: the command
`curl -H "X-A: 1" -H "X-A: 2" https://x` has two header flags with a colon and
the same name, and the header of its request holds one entry, with the later
value, not the two entries of the two flags. -/
theorem setHeaders_same_name_counterexample :
    splitCurlCommand (bytes "curl -H \"X-A: 1\" -H \"X-A: 2\" https://x") =
      .ok (headerTokens [bytes "X-A: 1", bytes "X-A: 2"] (bytes "https://x")) ∧
    interpret (bytes "curl -H \"X-A: 1\" -H \"X-A: 2\" https://x")
        (headerTokens [bytes "X-A: 1", bytes "X-A: 2"] (bytes "https://x")) =
      .ok ⟨bytes "GET", bytes "https://x", [], [bytes "X-A: 1", bytes "X-A: 2"]⟩ ∧
    [bytes "X-A: 1", bytes "X-A: 2"].filterMap parseHeader =
      [(bytes "X-A", bytes "1"), (bytes "X-A", bytes "2")] ∧
    setHeaders [bytes "X-A: 1", bytes "X-A: 2"] = [(bytes "X-A", [bytes "2"])] ∧
    setHeaders [bytes "X-A: 1", bytes "X-A: 2"] ≠
      ([bytes "X-A: 1", bytes "X-A: 2"].filterMap parseHeader).map (fun e => (e.1, [e.2])) := by
  decide

/-- C17, as amended: for a valid token list the method is `GET` when no
method flag with a value occurs or when the value of the last one is the empty
token, and is the value of the last method flag otherwise; the body is the
value of the last body flag with a value, and is empty when there is none. -/
theorem interpret_method_body (cmd : GoString) (parts : List GoString)
    (hv : ValidTokens parts) :
    ∃ fl : Flags, interpret cmd parts = .ok fl ∧
      fl.method = (match (flagValues (bytes "-X") (parts.drop 1)).getLast? with
        | none => bytes "GET"
        | some v => if v = [] then bytes "GET" else v) ∧
      fl.body = (flagValues (bytes "-d") (parts.drop 1)).getLast?.getD [] := by
  refine ⟨interpretFlags parts, interpret_valid cmd parts hv, ?_, ?_⟩
  · rw [interpretFlags_eq]
  · rw [interpretFlags_eq]

/-- Witness of C17, as amended: `curl -X POST -X PUT -d a -d b https://x`
gives the method `PUT` and the body `b`; `curl https://x` gives the method
`GET`. -/
theorem interpret_method_body_witness :
    (∃ fl : Flags, interpret (bytes "curl -X POST -X PUT -d a -d b https://x")
        [bytes "curl", bytes "-X", bytes "POST", bytes "-X", bytes "PUT", bytes "-d", bytes "a",
          bytes "-d", bytes "b", bytes "https://x"] = .ok fl ∧
      fl.method = (match (flagValues (bytes "-X")
          ([bytes "curl", bytes "-X", bytes "POST", bytes "-X", bytes "PUT", bytes "-d",
            bytes "a", bytes "-d", bytes "b", bytes "https://x"].drop 1)).getLast? with
        | none => bytes "GET"
        | some v => if v = [] then bytes "GET" else v) ∧
      fl.body = (flagValues (bytes "-d")
          ([bytes "curl", bytes "-X", bytes "POST", bytes "-X", bytes "PUT", bytes "-d",
            bytes "a", bytes "-d", bytes "b", bytes "https://x"].drop 1)).getLast?.getD []) ∧
    interpret (bytes "curl -X POST -X PUT -d a -d b https://x")
        [bytes "curl", bytes "-X", bytes "POST", bytes "-X", bytes "PUT", bytes "-d", bytes "a",
          bytes "-d", bytes "b", bytes "https://x"] =
      .ok ⟨bytes "PUT", bytes "https://x", bytes "b", []⟩ ∧
    interpret (bytes "curl https://x") [bytes "curl", bytes "https://x"] =
      .ok ⟨bytes "GET", bytes "https://x", [], []⟩ :=
  ⟨interpret_method_body _ _ (by decide), by decide, by decide⟩

/-- Counterexample to C17 as stated: the command `curl -X "" https://x` has a
method flag with a following value, the empty token, and its method is `GET`,
not that value. -/
theorem interpret_empty_method_counterexample :
    splitCurlCommand (bytes "curl -X \"\" https://x") =
      .ok [bytes "curl", bytes "-X", [], bytes "https://x"] ∧
    (flagValues (bytes "-X") [bytes "-X", [], bytes "https://x"]).getLast? = some [] ∧
    interpret (bytes "curl -X \"\" https://x") [bytes "curl", bytes "-X", [], bytes "https://x"] =
      .ok ⟨bytes "GET", bytes "https://x", [], []⟩ ∧
    bytes "GET" ≠ [] := by
  decide

/-- The variables do not change when a bare token that does not start with
`http` is taken out of the tokens. -/
theorem interpretFlags_remove_bare (ts1 ts2 : List GoString) (t : GoString)
    (hw : waiting ts1 = false) (ht : isFlag t = false)
    (hp : HasPrefix t (bytes "http") = false) :
    interpretFlags (bytes "curl" :: (ts1 ++ ts2)) =
      interpretFlags (bytes "curl" :: (ts1 ++ t :: ts2)) := by
  simp only [interpretFlags, List.drop_succ_cons, List.drop_zero]
  rw [flagLoop_append _ ts1 (Nat.le_refl _) hw, flagLoop_append _ ts1 (Nat.le_refl _) hw,
    flagLoop_bare _ t ts2 ht]
  simp [hp]

/-- C18, as amended: for a valid token list the url is the last bare token
that starts with `http`, and is empty when there is none; and when a bare
token that does not start with `http` is taken out and at least two tokens
remain, the interpretation is the same. -/
theorem interpret_url (cmd : GoString) (parts : List GoString) (hv : ValidTokens parts) :
    ∃ fl : Flags, interpret cmd parts = .ok fl ∧
      fl.url = (urlTokens (parts.drop 1)).getLast?.getD [] ∧
      (∀ (ts1 ts2 : List GoString) (t : GoString),
        parts = bytes "curl" :: (ts1 ++ t :: ts2) →
        waiting ts1 = false → isFlag t = false → HasPrefix t (bytes "http") = false →
        ts1 ++ ts2 ≠ [] →
        interpret cmd (bytes "curl" :: (ts1 ++ ts2)) = .ok fl) := by
  refine ⟨interpretFlags parts, interpret_valid cmd parts hv, ?_, ?_⟩
  · rw [interpretFlags_eq]
  · intro ts1 ts2 t hparts hw ht hp hne
    have hv2 : ValidTokens (bytes "curl" :: (ts1 ++ ts2)) := by
      constructor
      · have : 0 < (ts1 ++ ts2).length := List.length_pos.2 hne
        simp only [List.length_cons]
        omega
      · rfl
    rw [interpret_valid cmd _ hv2, hparts, interpretFlags_remove_bare ts1 ts2 t hw ht hp]

/-- Witness of C18, as amended: `curl http://a ftp://b --verbose https://c`
has the url `https://c`, also without `ftp://b`; `httpx` is taken as a url
and `HTTP://x` is not. -/
theorem interpret_url_witness :
    (∃ fl : Flags, interpret (bytes "curl http://a ftp://b --verbose https://c")
        [bytes "curl", bytes "http://a", bytes "ftp://b", bytes "--verbose", bytes "https://c"] =
          .ok fl ∧
      fl.url = (urlTokens ([bytes "curl", bytes "http://a", bytes "ftp://b", bytes "--verbose",
        bytes "https://c"].drop 1)).getLast?.getD [] ∧
      (∀ (ts1 ts2 : List GoString) (t : GoString),
        [bytes "curl", bytes "http://a", bytes "ftp://b", bytes "--verbose", bytes "https://c"] =
          bytes "curl" :: (ts1 ++ t :: ts2) →
        waiting ts1 = false → isFlag t = false → HasPrefix t (bytes "http") = false →
        ts1 ++ ts2 ≠ [] →
        interpret (bytes "curl http://a ftp://b --verbose https://c")
          (bytes "curl" :: (ts1 ++ ts2)) = .ok fl)) ∧
    interpret (bytes "curl http://a ftp://b --verbose https://c")
        [bytes "curl", bytes "http://a", bytes "ftp://b", bytes "--verbose", bytes "https://c"] =
      .ok ⟨bytes "GET", bytes "https://c", [], []⟩ ∧
    interpret (bytes "curl http://a ftp://b --verbose https://c")
        [bytes "curl", bytes "http://a", bytes "--verbose", bytes "https://c"] =
      .ok ⟨bytes "GET", bytes "https://c", [], []⟩ ∧
    interpret (bytes "curl httpx HTTP://x") [bytes "curl", bytes "httpx", bytes "HTTP://x"] =
      .ok ⟨bytes "GET", bytes "httpx", [], []⟩ :=
  ⟨interpret_url _ _ (by decide), by decide, by decide, by decide⟩

/-- Counterexample to C18 as stated: the token list `curl`, `ftp://b` is valid
and `ftp://b` is a bare token that does not start with `http`; with it the
tokens are interpreted without error, and without it they are refused as an
invalid command. -/
theorem interpret_remove_bare_counterexample :
    ValidTokens [bytes "curl", bytes "ftp://b"] ∧
    isFlag (bytes "ftp://b") = false ∧
    HasPrefix (bytes "ftp://b") (bytes "http") = false ∧
    interpret (bytes "curl ftp://b") [bytes "curl", bytes "ftp://b"] =
      .ok ⟨bytes "GET", [], [], []⟩ ∧
    interpret (bytes "curl ftp://b") [bytes "curl"] =
      .error (bytes "invalid curl command: " ++ bytes "curl ftp://b") := by
  decide

/-- C19: a flag with no token after it is ignored: for a valid token list
whose last token is not a flag left waiting for a value, and each of the
flags `-X`, `-H`, `-d`, the list followed by the flag is interpreted without
error and gives the same method, url, headers and body as the list alone. -/
theorem interpret_trailing_flag (cmd : GoString) (parts : List GoString) (f : GoString)
    (hv : ValidTokens parts) (hw : waiting (parts.drop 1) = false) (hf : isFlag f = true) :
    ∃ fl : Flags, interpret cmd parts = .ok fl ∧ interpret cmd (parts ++ [f]) = .ok fl := by
  refine ⟨interpretFlags parts, interpret_valid cmd parts hv, ?_⟩
  cases parts with
  | nil => exact absurd hv.1 (by simp)
  | cons c rest =>
    have hv2 : ValidTokens (c :: rest ++ [f]) := by
      constructor
      · have := hv.1
        simp only [List.length_cons, List.cons_append, List.length_append] at this ⊢
        omega
      · exact hv.2
    rw [interpret_valid cmd _ hv2]
    simp only [List.drop_succ_cons, List.drop_zero] at hw
    simp only [interpretFlags, List.cons_append, List.drop_succ_cons, List.drop_zero]
    rw [flagLoop_append _ rest (Nat.le_refl _) hw, flagLoop_lone _ f hf]

/-- Witness of C19: `curl https://x -d` gives the method `GET`, the url
`https://x` and no body, as `curl https://x` does. -/
theorem interpret_trailing_flag_witness :
    (∃ fl : Flags, interpret (bytes "curl https://x -d") [bytes "curl", bytes "https://x"] =
        .ok fl ∧
      interpret (bytes "curl https://x -d") ([bytes "curl", bytes "https://x"] ++ [bytes "-d"]) =
        .ok fl) ∧
    interpret (bytes "curl https://x -d") [bytes "curl", bytes "https://x", bytes "-d"] =
      .ok ⟨bytes "GET", bytes "https://x", [], []⟩ :=
  ⟨interpret_trailing_flag _ [bytes "curl", bytes "https://x"] (bytes "-d")
    (by decide) (by decide) (by decide), by decide⟩

/-- C20, as amended: for a valid token list without a url token the
interpretation does not fail: it gives the empty url, and `executeRequest`
hands that url to `http.NewRequest` and, when the library raises no error
there, to the client in the request; the code makes no check of the url of its
own. -/
theorem executeRequest_no_url (cmd : GoString) (parts : List GoString)
    (hv : ValidTokens parts) (hu : urlTokens (parts.drop 1) = []) :
    ∃ fl : Flags, interpret cmd parts = .ok fl ∧ fl.url = [] ∧
      ∀ lib : HttpLibrary, splitCurlCommand cmd = .ok parts →
        executeRequest lib cmd =
          match lib.newRequestError fl.method [] (reqBody fl.body) with
          | some err => .error (bytes "failed to create request: " ++ err)
          | none => sendRequest lib ⟨fl.method, [], reqBody fl.body, setHeaders fl.headers⟩ := by
  have hurl : (interpretFlags parts).url = [] := by
    rw [interpretFlags_eq, hu]; rfl
  refine ⟨interpretFlags parts, interpret_valid cmd parts hv, hurl, ?_⟩
  intro lib hs
  rw [executeRequest_valid lib cmd parts hs hv, hurl]

/-- Witness of C20, as amended: the tokens `curl`, `-X`, `GET`. -/
theorem executeRequest_no_url_witness :
    ∃ fl : Flags, interpret (bytes "curl -X GET") [bytes "curl", bytes "-X", bytes "GET"] =
        .ok fl ∧ fl.url = [] ∧
      ∀ lib : HttpLibrary, splitCurlCommand (bytes "curl -X GET") =
          .ok [bytes "curl", bytes "-X", bytes "GET"] →
        executeRequest lib (bytes "curl -X GET") =
          match lib.newRequestError fl.method [] (reqBody fl.body) with
          | some err => .error (bytes "failed to create request: " ++ err)
          | none => sendRequest lib ⟨fl.method, [], reqBody fl.body, setHeaders fl.headers⟩ :=
  executeRequest_no_url (bytes "curl -X GET") [bytes "curl", bytes "-X", bytes "GET"]
    (by decide) (by decide)

/-- Counterexample to C20 as stated: the tokens `curl`, `-X`, `GET` are valid
and hold no url token, and their interpretation does not fail: it gives the
method `GET` and the empty url. -/
theorem interpret_no_url_counterexample :
    splitCurlCommand (bytes "curl -X GET") = .ok [bytes "curl", bytes "-X", bytes "GET"] ∧
    ValidTokens [bytes "curl", bytes "-X", bytes "GET"] ∧
    urlTokens [bytes "-X", bytes "GET"] = [] ∧
    interpret (bytes "curl -X GET") [bytes "curl", bytes "-X", bytes "GET"] =
      .ok ⟨bytes "GET", [], [], []⟩ := by
  decide

/-! ### Further properties of the tokenizer, the substitutor and the flag loop -/

/-- C25, as amended: the template `${}` is returned unchanged for every row,
with or without the empty string as a key: the expression needs at least one
byte between the braces, so the row is not read. -/
theorem replaceTemplate_empty_braces (data : Row) :
    replaceTemplate (OPEN ++ [RBRACE]) data = OPEN ++ [RBRACE] := by
  have hshape : OPEN ++ [RBRACE] = DOLLAR :: LBRACE :: RBRACE :: [] := rfl
  have htail : ¬ OPEN <:+: [LBRACE, RBRACE] := by decide
  rw [hshape]
  unfold replaceTemplate
  rw [replaceAllStringFunc_cons, matchPlaceholder_empty_name]
  simp only
  have := replaceAllStringFunc_skip (replaceMatch data) [LBRACE, RBRACE] [] htail (by simp)
  rw [List.append_nil, replaceAllStringFunc_nil, List.append_nil] at this
  rw [this]

/-- Counterexample to C25 as stated: the row with the empty string as a key
and the value `test` leaves the template `${}` as it is; the value is not
substituted. -/
theorem replaceTemplate_empty_key_counterexample :
    Row.get [(bytes "", bytes "test")] (bytes "") = some (bytes "test") ∧
    replaceTemplate (bytes "$\x7b\x7d") [(bytes "", bytes "test")] = bytes "$\x7b\x7d" ∧
    replaceTemplate (bytes "$\x7b\x7d") [(bytes "", bytes "test")] ≠ bytes "test" := by
  decide

/-- C26: the token after an unconsumed flag is used as the value of the flag
and as nothing else: when the walk over `ts1` does not end on a waiting flag,
the loop over `ts1`, the flag, `v`, `ts2` is the loop over `ts1`, then `v`
stored as the method, appended to the header values, or stored as the body,
the url and the other variables untouched, then the loop over `ts2`; whatever
`v` is, it is not read as a url or as a flag. -/
theorem flagLoop_value_consumed (st : Flags) (ts1 ts2 : List GoString) (v : GoString)
    (hw : waiting ts1 = false) :
    flagLoop st (ts1 ++ bytes "-X" :: v :: ts2) =
      flagLoop { flagLoop st ts1 with method := v } ts2 ∧
    flagLoop st (ts1 ++ bytes "-H" :: v :: ts2) =
      flagLoop { flagLoop st ts1 with headers := (flagLoop st ts1).headers ++ [v] } ts2 ∧
    flagLoop st (ts1 ++ bytes "-d" :: v :: ts2) =
      flagLoop { flagLoop st ts1 with body := v } ts2 := by
  refine ⟨?_, ?_, ?_⟩
  · rw [flagLoop_append _ ts1 (Nat.le_refl _) hw, flagLoop_X]
  · rw [flagLoop_append _ ts1 (Nat.le_refl _) hw, flagLoop_H]
  · rw [flagLoop_append _ ts1 (Nat.le_refl _) hw, flagLoop_d]

/-- Witness of C26: `curl -d http://a https://b` gives the body `http://a` and
the url `https://b`; `curl -X -H a:b https://x` gives the method `-H` and no
header value. -/
theorem flagLoop_value_consumed_witness :
    (flagLoop ⟨[], [], [], []⟩ ([] ++ bytes "-X" :: bytes "http://a" :: [bytes "https://b"]) =
        flagLoop { flagLoop ⟨[], [], [], []⟩ [] with method := bytes "http://a" }
          [bytes "https://b"] ∧
      flagLoop ⟨[], [], [], []⟩ ([] ++ bytes "-H" :: bytes "http://a" :: [bytes "https://b"]) =
        flagLoop { flagLoop ⟨[], [], [], []⟩ [] with
          headers := (flagLoop ⟨[], [], [], []⟩ []).headers ++ [bytes "http://a"] }
          [bytes "https://b"] ∧
      flagLoop ⟨[], [], [], []⟩ ([] ++ bytes "-d" :: bytes "http://a" :: [bytes "https://b"]) =
        flagLoop { flagLoop ⟨[], [], [], []⟩ [] with body := bytes "http://a" }
          [bytes "https://b"]) ∧
    interpret (bytes "curl -d http://a https://b")
        [bytes "curl", bytes "-d", bytes "http://a", bytes "https://b"] =
      .ok ⟨bytes "GET", bytes "https://b", bytes "http://a", []⟩ ∧
    interpret (bytes "curl -X -H a:b https://x")
        [bytes "curl", bytes "-X", bytes "-H", bytes "a:b", bytes "https://x"] =
      .ok ⟨bytes "-H", bytes "https://x", [], []⟩ :=
  ⟨flagLoop_value_consumed ⟨[], [], [], []⟩ [] [bytes "https://b"] (bytes "http://a")
    (by decide), by decide, by decide⟩

/-- C27: bare text and a quoted segment next to it: for a non-empty bare word
`a` and a text `s` without double quotes and backslashes, the command `a`,
`s` in double quotes is the single token `a s`, the opening quote not
flushing the builder, and the command `s` in double quotes, `a` is the two
tokens `s` and `a`, the closing quote flushing it. -/
theorem splitCurlCommand_bare_quoted (a s : GoString) (ha : a ≠ [])
    (hA : ∀ c ∈ a, IsBare c) (hs : ∀ c ∈ s, c ≠ DQUOTE ∧ c ≠ BACKSLASH) :
    splitCurlCommand (a ++ [DQUOTE] ++ s ++ [DQUOTE]) = .ok [a ++ s] ∧
    splitCurlCommand ([DQUOTE] ++ s ++ [DQUOTE] ++ a) = .ok [s, a] := by
  constructor
  · simp only [splitCurlCommand, SplitState.init, splitLoop_append, splitLoop_cons,
      splitLoop_nil]
    rw [splitLoop_bare a _ _ _ hA, List.nil_append, splitStep_open _ _ _ _ (Or.inr rfl),
      splitLoop_inside s _ _ _ hs, splitStep_close _ _ _ (by decide)]
    simp [splitFinish]
  · simp only [splitCurlCommand, SplitState.init, splitLoop_append, splitLoop_cons,
      splitLoop_nil]
    rw [splitStep_open _ _ _ _ (Or.inr rfl), splitLoop_inside s _ _ _ hs,
      splitStep_close _ _ _ (by decide), splitLoop_bare a _ _ _ hA]
    cases a with
    | nil => exact absurd rfl ha
    | cons x xs => simp [splitFinish]

/-- Witness of C27: `-d"a b"` is one token, `"a b"-d` is two. -/
theorem splitCurlCommand_bare_quoted_witness :
    (splitCurlCommand (bytes "-d" ++ [DQUOTE] ++ bytes "a b" ++ [DQUOTE]) =
        .ok [bytes "-d" ++ bytes "a b"] ∧
      splitCurlCommand ([DQUOTE] ++ bytes "a b" ++ [DQUOTE] ++ bytes "-d") =
        .ok [bytes "a b", bytes "-d"]) ∧
    splitCurlCommand (bytes "-d\"a b\"") = .ok [bytes "-da b"] ∧
    splitCurlCommand (bytes "\"a b\"-d") = .ok [bytes "a b", bytes "-d"] :=
  ⟨splitCurlCommand_bare_quoted (bytes "-d") (bytes "a b") (by decide) (by decide) (by decide),
    by decide, by decide⟩

/-- C28: the leftmost placeholder opening takes all the text up to the next
closing brace: for an identifier `k`, non-empty, without closing brace and
dollar sign, that is a key of the row, and a text `x` without closing brace,
the template `${`, `x`, `${`, `k`, `}` is one placeholder with the identifier
`x ${ k`; it renders to the value of that identifier when the row has it, and
is returned unchanged when the row does not, the inner placeholder of `k`
not being substituted. -/
theorem replaceTemplate_swallow (data : Row) (k v x : GoString)
    (_hk : k ≠ []) (hr : RBRACE ∉ k) (_hd : DOLLAR ∉ k) (_hget : data.get k = some v)
    (hx : RBRACE ∉ x) :
    replaceTemplate (OPEN ++ x ++ OPEN ++ k ++ [RBRACE]) data =
      (data.get (x ++ OPEN ++ k)).getD (OPEN ++ x ++ OPEN ++ k ++ [RBRACE]) ∧
    (data.get (x ++ OPEN ++ k) = none →
      replaceTemplate (OPEN ++ x ++ OPEN ++ k ++ [RBRACE]) data =
        OPEN ++ x ++ OPEN ++ k ++ [RBRACE]) := by
  have hne : x ++ OPEN ++ k ≠ [] := by simp
  have hnr : RBRACE ∉ x ++ OPEN ++ k := by
    simp only [List.mem_append, not_or]
    exact ⟨⟨hx, by decide⟩, hr⟩
  have hshape : OPEN ++ x ++ OPEN ++ k ++ [RBRACE] = placeholder (x ++ OPEN ++ k) := by
    simp [placeholder]
  have h := replaceTemplate_step data [] (x ++ OPEN ++ k) [] (by decide) hne hnr
  simp only [List.nil_append, List.append_nil, replaceTemplate_nil] at h
  rw [hshape]
  refine ⟨h, fun hnone => ?_⟩
  rw [h, hnone]; rfl

/-- Witness of C28: `${X ${A}` with the row A = `v` is returned unchanged. -/
theorem replaceTemplate_swallow_witness :
    (replaceTemplate (OPEN ++ bytes "X " ++ OPEN ++ bytes "A" ++ [RBRACE])
        [(bytes "A", bytes "v")] =
        (Row.get [(bytes "A", bytes "v")] (bytes "X " ++ OPEN ++ bytes "A")).getD
          (OPEN ++ bytes "X " ++ OPEN ++ bytes "A" ++ [RBRACE]) ∧
      (Row.get [(bytes "A", bytes "v")] (bytes "X " ++ OPEN ++ bytes "A") = none →
        replaceTemplate (OPEN ++ bytes "X " ++ OPEN ++ bytes "A" ++ [RBRACE])
          [(bytes "A", bytes "v")] = OPEN ++ bytes "X " ++ OPEN ++ bytes "A" ++ [RBRACE])) ∧
    replaceTemplate (bytes "$\x7bX $\x7bA\x7d") [(bytes "A", bytes "v")] =
      bytes "$\x7bX $\x7bA\x7d" :=
  ⟨replaceTemplate_swallow [(bytes "A", bytes "v")] (bytes "A") (bytes "v") (bytes "X ")
    (by decide) (by decide) (by decide) (by decide) (by decide), by decide⟩

/-- C29: a line break does not separate tokens: for non-empty bare words `a`
and `b`, the command `a`, line feed, `b` and the command `a`, carriage
return, `b` are each the single token that holds the line break between `a`
and `b`. -/
theorem splitCurlCommand_line_break (a b : GoString) (ha : a ≠ []) (_hb : b ≠ [])
    (hA : ∀ c ∈ a, IsBare c) (hB : ∀ c ∈ b, IsBare c) :
    splitCurlCommand (a ++ [10] ++ b) = .ok [a ++ [10] ++ b] ∧
    splitCurlCommand (a ++ [13] ++ b) = .ok [a ++ [13] ++ b] := by
  have hbare : ∀ n : Byte, IsBare n → ∀ c ∈ a ++ [n] ++ b, IsBare c := by
    intro n hn c hc
    simp only [List.mem_append, List.mem_singleton] at hc
    rcases hc with (hc | rfl) | hc
    · exact hA c hc
    · exact hn
    · exact hB c hc
  have hfin : ∀ n : Byte, IsBare n →
      splitCurlCommand (a ++ [n] ++ b) = .ok [a ++ [n] ++ b] := by
    intro n hn
    simp only [splitCurlCommand, SplitState.init]
    rw [splitLoop_bare _ _ _ _ (hbare n hn)]
    cases a with
    | nil => exact absurd rfl ha
    | cons x xs => simp [splitFinish]
  exact ⟨hfin 10 (by decide), hfin 13 (by decide)⟩

/-- Witness of C29: `curl` and `-X` on two lines are one token. -/
theorem splitCurlCommand_line_break_witness :
    (splitCurlCommand (bytes "curl" ++ [10] ++ bytes "-X") =
        .ok [bytes "curl" ++ [10] ++ bytes "-X"] ∧
      splitCurlCommand (bytes "curl" ++ [13] ++ bytes "-X") =
        .ok [bytes "curl" ++ [13] ++ bytes "-X"]) ∧
    splitCurlCommand (bytes "curl\n-X") = .ok [bytes "curl\n-X"] :=
  ⟨splitCurlCommand_line_break (bytes "curl") (bytes "-X") (by decide) (by decide)
    (by decide) (by decide), by decide⟩

/-! ### The batch runner -/

/-- The text written by events one after the other. -/
theorem outputText_append (a b : List Event) :
    outputText (a ++ b) = outputText a ++ outputText b := by
  simp [outputText, List.filterMap_append]

/-- The sleeps of events one after the other. -/
theorem sleepCount_append (a b : List Event) :
    sleepCount (a ++ b) = sleepCount a + sleepCount b := by
  simp [sleepCount, List.filter_append]

/-- The text written by one iteration is the fragment of its row. -/
theorem outputText_runIteration (cb : Batch) (lib : HttpLibrary) (fmtRow : Row → GoString)
    (i : Nat) (row : Row) :
    outputText (runIteration cb lib fmtRow i row) =
      fragment cb.CurlTemplate fmtRow (i + 1) row
        (executeRequest lib (replaceTemplate cb.CurlTemplate row)) := by
  unfold runIteration fragment
  cases h : executeRequest lib (replaceTemplate cb.CurlTemplate row) <;>
    simp [outputText, List.filterMap_cons, h]

/-- An iteration does not sleep. -/
theorem sleepCount_runIteration (cb : Batch) (lib : HttpLibrary) (fmtRow : Row → GoString)
    (i : Nat) (row : Row) : sleepCount (runIteration cb lib fmtRow i row) = 0 := by
  unfold runIteration
  cases h : executeRequest lib (replaceTemplate cb.CurlTemplate row) <;>
    simp [sleepCount, List.filter_cons, h]

/-- The text written by the loop from the index `i` on. -/
theorem outputText_runLoop (cb : Batch) (libs : Nat → HttpLibrary) (fmtRow : Row → GoString)
    (rows : List Row) :
    ∀ i : Nat, outputText (runLoop cb libs fmtRow i rows) =
      ((rows.enumFrom i).map (fun p => fragment cb.CurlTemplate fmtRow (p.1 + 1) p.2
        (executeRequest (libs p.1) (replaceTemplate cb.CurlTemplate p.2)))).flatten := by
  induction rows with
  | nil => intro i; rfl
  | cons row rest ih =>
    intro i
    have hsleep : outputText (if cb.SleepMsec > 0 ∧ (i : Int) < (cb.CSVData.length : Int) - 1
        then [Event.sleep (sleepDuration cb)] else []) = [] := by
      split <;> rfl
    simp only [runLoop, outputText_append, outputText_runIteration, hsleep, ih,
      List.enumFrom_cons, List.map_cons, List.flatten_cons, List.append_nil]

/-- The test for the sleep in the loop: with the rows from the index `i` on,
the row of index `i` is followed by a sleep exactly when it is not the
last. -/
theorem sleep_test (cb : Batch) (i : Nat) (rest : List Row)
    (hlen : i + (rest.length + 1) = cb.CSVData.length) :
    ((i : Int) < (cb.CSVData.length : Int) - 1) ↔ rest ≠ [] := by
  constructor
  · intro h e
    subst e
    simp only [List.length_nil] at hlen
    omega
  · intro h
    have : 0 < rest.length := List.length_pos.2 h
    omega

/-- The events of the loop from the index `i` on, when the batch sleeps: the
iterations with one sleep between each two of them. -/
theorem runLoop_intercalate (cb : Batch) (libs : Nat → HttpLibrary) (fmtRow : Row → GoString)
    (hs : 0 < cb.SleepMsec) (rows : List Row) :
    ∀ i : Nat, i + rows.length = cb.CSVData.length →
      runLoop cb libs fmtRow i rows =
        List.intercalate [Event.sleep (sleepDuration cb)]
          ((rows.enumFrom i).map (fun p => runIteration cb (libs p.1) fmtRow p.1 p.2)) := by
  induction rows with
  | nil => intro i _; simp [runLoop, List.intercalate]
  | cons row rest ih =>
    intro i hlen
    simp only [List.length_cons] at hlen
    have htest := sleep_test cb i rest hlen
    cases rest with
    | nil =>
      have hno : ¬ (cb.SleepMsec > 0 ∧ (i : Int) < (cb.CSVData.length : Int) - 1) :=
        fun h => (htest.1 h.2) rfl
      simp [runLoop, hno, List.intercalate]
    | cons r rs =>
      have hyes : cb.SleepMsec > 0 ∧ (i : Int) < (cb.CSVData.length : Int) - 1 :=
        ⟨hs, htest.2 (by simp)⟩
      have hrec := ih (i + 1) (by simp only [List.length_cons] at hlen ⊢; omega)
      rw [runLoop, if_pos hyes, hrec]
      simp [List.intercalate, List.enumFrom_cons]

/-- The events of the loop when the batch does not sleep: the iterations one
after the other. -/
theorem runLoop_flatten (cb : Batch) (libs : Nat → HttpLibrary) (fmtRow : Row → GoString)
    (hs : cb.SleepMsec ≤ 0) (rows : List Row) :
    ∀ i : Nat, runLoop cb libs fmtRow i rows =
      ((rows.enumFrom i).map (fun p => runIteration cb (libs p.1) fmtRow p.1 p.2)).flatten := by
  induction rows with
  | nil => intro i; rfl
  | cons row rest ih =>
    intro i
    have hno : ¬ (cb.SleepMsec > 0 ∧ (i : Int) < (cb.CSVData.length : Int) - 1) :=
      fun h => by omega
    simp [runLoop, hno, ih, List.enumFrom_cons]

/-- The number of sleeps of the loop from the index `i` on. -/
theorem sleepCount_runLoop (cb : Batch) (libs : Nat → HttpLibrary) (fmtRow : Row → GoString)
    (rows : List Row) :
    ∀ i : Nat, i + rows.length = cb.CSVData.length →
      sleepCount (runLoop cb libs fmtRow i rows) =
        if 0 < cb.SleepMsec then rows.length - 1 else 0 := by
  induction rows with
  | nil => intro i _; simp [runLoop, sleepCount]
  | cons row rest ih =>
    intro i hlen
    simp only [List.length_cons] at hlen
    have htest := sleep_test cb i rest hlen
    have hrec := ih (i + 1) (by omega)
    simp only [runLoop, sleepCount_append, sleepCount_runIteration, hrec, Nat.zero_add,
      List.length_cons, Nat.add_sub_cancel]
    by_cases hs : 0 < cb.SleepMsec
    · cases rest with
      | nil =>
        have hno : ¬ (cb.SleepMsec > 0 ∧ (i : Int) < (cb.CSVData.length : Int) - 1) :=
          fun h => (htest.1 h.2) rfl
        rw [if_neg hno]
        simp [hs, sleepCount]
      | cons r rs =>
        have hyes : cb.SleepMsec > 0 ∧ (i : Int) < (cb.CSVData.length : Int) - 1 :=
          ⟨hs, htest.2 (by simp)⟩
        rw [if_pos hyes]
        simp [hs, sleepCount]
        omega
    · have hno : ¬ (cb.SleepMsec > 0 ∧ (i : Int) < (cb.CSVData.length : Int) - 1) :=
        fun h => hs h.1
      rw [if_neg hno]
      simp [hs, sleepCount]

/-- The fragment starts with its header line, holds the command line, and
ends with the error line or the result block followed by the blank line. -/
theorem fragment_shape (template : GoString) (fmtRow : Row → GoString) (i : Nat) (row : Row)
    (outcome : Except GoString GoString) :
    (bytes "=== Request " ++ itoa i ++ bytes " ===") <+: fragment template fmtRow i row outcome ∧
    (bytes "Command: " ++ replaceTemplate template row ++ bytes "\n") <:+:
      fragment template fmtRow i row outcome ∧
    (∀ err, outcome = .error err →
      (bytes "Error: " ++ err ++ bytes "\n\n") <:+ fragment template fmtRow i row outcome) ∧
    (∀ result, outcome = .ok result →
      (bytes "Result:\n" ++ result ++ bytes "\n\n") <:+
        fragment template fmtRow i row outcome) := by
  have h1 : bytes " ===\n" = bytes " ===" ++ bytes "\n" := by decide
  have h2 : bytes "\n\n" = bytes "\n" ++ bytes "\n" := by decide
  refine ⟨?_, ?_, ?_, ?_⟩
  · refine ⟨bytes "\n" ++ (bytes "Command: " ++ replaceTemplate template row ++ bytes "\n") ++
      (bytes "Data: " ++ fmtRow row ++ bytes "\n") ++
      (match outcome with
        | .error err => bytes "Error: " ++ err ++ bytes "\n"
        | .ok result => bytes "Result:\n" ++ result ++ bytes "\n") ++ bytes "\n", ?_⟩
    simp only [fragment, h1, List.append_assoc]
  · refine ⟨bytes "=== Request " ++ itoa i ++ bytes " ===\n",
      (bytes "Data: " ++ fmtRow row ++ bytes "\n") ++
      (match outcome with
        | .error err => bytes "Error: " ++ err ++ bytes "\n"
        | .ok result => bytes "Result:\n" ++ result ++ bytes "\n") ++ bytes "\n", ?_⟩
    simp only [fragment, List.append_assoc]
  · intro err he
    subst he
    refine ⟨bytes "=== Request " ++ itoa i ++ bytes " ===\n" ++
      (bytes "Command: " ++ replaceTemplate template row ++ bytes "\n") ++
      (bytes "Data: " ++ fmtRow row ++ bytes "\n"), ?_⟩
    simp only [fragment, h2, List.append_assoc]
  · intro result he
    subst he
    refine ⟨bytes "=== Request " ++ itoa i ++ bytes " ===\n" ++
      (bytes "Command: " ++ replaceTemplate template row ++ bytes "\n") ++
      (bytes "Data: " ++ fmtRow row ++ bytes "\n"), ?_⟩
    simp only [fragment, h2, List.append_assoc]

/-- C21: `Run` writes one report fragment for each data row, in row order,
whatever each call of `executeRequest` gives, and returns no error: the text
appended to the output is the concatenation, for the rows in order, of the
fragment of the request number `i` (counted from 1), which starts with the
line `=== Request i ===`, holds the line `Command: ` with the rendering of the
template for the row, and ends with the `Error: ` line or the `Result:` block
of the call followed by a blank line. -/
theorem Run_output (cb : Batch) (libs : Nat → HttpLibrary) (fmtRow : Row → GoString) :
    (Run cb libs fmtRow).2 = none ∧
    outputText (Run cb libs fmtRow).1 =
      (cb.CSVData.enum.map (fun p => fragment cb.CurlTemplate fmtRow (p.1 + 1) p.2
        (executeRequest (libs p.1) (replaceTemplate cb.CurlTemplate p.2)))).flatten ∧
    (cb.CSVData.enum.map (fun p => fragment cb.CurlTemplate fmtRow (p.1 + 1) p.2
        (executeRequest (libs p.1) (replaceTemplate cb.CurlTemplate p.2)))).length =
      cb.CSVData.length ∧
    (∀ (i : Nat) (row : Row) (outcome : Except GoString GoString),
      (bytes "=== Request " ++ itoa i ++ bytes " ===") <+:
        fragment cb.CurlTemplate fmtRow i row outcome ∧
      (bytes "Command: " ++ replaceTemplate cb.CurlTemplate row ++ bytes "\n") <:+:
        fragment cb.CurlTemplate fmtRow i row outcome ∧
      (∀ err, outcome = .error err →
        (bytes "Error: " ++ err ++ bytes "\n\n") <:+
          fragment cb.CurlTemplate fmtRow i row outcome) ∧
      (∀ result, outcome = .ok result →
        (bytes "Result:\n" ++ result ++ bytes "\n\n") <:+
          fragment cb.CurlTemplate fmtRow i row outcome)) := by
  refine ⟨rfl, ?_, by simp [List.enum], fun i row outcome => fragment_shape _ _ _ _ _⟩
  simp only [Run, outputText_append, outputText_runLoop, List.enum]
  simp [outputText]

set_option maxRecDepth 20000 in
/-- Witness of C21: a template with two placeholders and two rows, with a
library that refuses every request: two fragments, in row order, each with
the command of its row. -/
theorem Run_output_witness :
    outputText (Run ⟨bytes "curl -X $\x7bM\x7d $\x7bU\x7d",
        [[(bytes "M", bytes "GET"), (bytes "U", bytes "https://a")],
          [(bytes "M", bytes "PUT"), (bytes "U", bytes "https://b")]], 0⟩
        (fun _ => ⟨fun _ _ _ => none, fun _ => .error (bytes "refused")⟩)
        (fun _ => bytes "map[]")).1 =
      bytes ("=== Request 1 ===\nCommand: curl -X GET https://a\nData: map[]\n" ++
        "Error: request failed: refused\n\n" ++
        "=== Request 2 ===\nCommand: curl -X PUT https://b\nData: map[]\n" ++
        "Error: request failed: refused\n\n") ∧
    outputText (Run ⟨bytes "curl -X $\x7bM\x7d $\x7bU\x7d",
        [[(bytes "M", bytes "GET"), (bytes "U", bytes "https://a")],
          [(bytes "M", bytes "PUT"), (bytes "U", bytes "https://b")]], 0⟩
        (fun _ => ⟨fun _ _ _ => none, fun _ => .error (bytes "refused")⟩)
        (fun _ => bytes "map[]")).1 =
      ((List.enum [[(bytes "M", bytes "GET"), (bytes "U", bytes "https://a")],
          [(bytes "M", bytes "PUT"), (bytes "U", bytes "https://b")]]).map
        (fun p => fragment (bytes "curl -X $\x7bM\x7d $\x7bU\x7d") (fun _ => bytes "map[]")
          (p.1 + 1) p.2
          (executeRequest ⟨fun _ _ _ => none, fun _ => .error (bytes "refused")⟩
            (replaceTemplate (bytes "curl -X $\x7bM\x7d $\x7bU\x7d") p.2)))).flatten :=
  ⟨by decide,
    (Run_output ⟨bytes "curl -X $\x7bM\x7d $\x7bU\x7d",
        [[(bytes "M", bytes "GET"), (bytes "U", bytes "https://a")],
          [(bytes "M", bytes "PUT"), (bytes "U", bytes "https://b")]], 0⟩
        (fun _ => ⟨fun _ _ _ => none, fun _ => .error (bytes "refused")⟩)
        (fun _ => bytes "map[]")).2.1⟩

/-- C22: the delay between requests: when `SleepMsec` is positive the events
of `Run` are those of the iterations, in row order, with one sleep between
each two iterations in a row, after all the events of the first and before
all the events of the second, and none after the last; so a batch of `n` rows
sleeps `n - 1` times, and not at all when it has no row; when `SleepMsec` is
zero or negative it never sleeps. -/
theorem Run_sleeps (cb : Batch) (libs : Nat → HttpLibrary) (fmtRow : Row → GoString) :
    (0 < cb.SleepMsec → (Run cb libs fmtRow).1 =
      List.intercalate [Event.sleep (sleepDuration cb)] (runBlocks cb libs fmtRow) ++
        [Event.close]) ∧
    (cb.SleepMsec ≤ 0 → (Run cb libs fmtRow).1 =
      (runBlocks cb libs fmtRow).flatten ++ [Event.close]) ∧
    (runBlocks cb libs fmtRow).length = cb.CSVData.length ∧
    (∀ b ∈ runBlocks cb libs fmtRow, sleepCount b = 0) ∧
    sleepCount (Run cb libs fmtRow).1 =
      (if 0 < cb.SleepMsec then cb.CSVData.length - 1 else 0) := by
  refine ⟨?_, ?_, by simp [runBlocks, List.enum], ?_, ?_⟩
  · intro hs
    simp only [Run, runBlocks, List.enum]
    rw [runLoop_intercalate cb libs fmtRow hs cb.CSVData 0 (by simp)]
  · intro hs
    simp only [Run, runBlocks, List.enum]
    rw [runLoop_flatten cb libs fmtRow hs cb.CSVData 0]
  · intro b hb
    simp only [runBlocks, List.mem_map] at hb
    obtain ⟨p, _, rfl⟩ := hb
    exact sleepCount_runIteration _ _ _ _ _
  · simp only [Run, sleepCount_append]
    rw [sleepCount_runLoop cb libs fmtRow cb.CSVData 0 (by simp)]
    simp [sleepCount]

/-- Witness of C22: a batch of three rows with a delay of 5 milliseconds
sleeps twice, between the iterations; with no delay, or with no row, it does
not sleep. -/
theorem Run_sleeps_witness :
    (Run ⟨bytes "x", [[], [], []], 5⟩ (fun _ => ⟨fun _ _ _ => none, fun _ => .error []⟩)
        (fun _ => [])).1 =
      List.intercalate [Event.sleep (sleepDuration ⟨bytes "x", [[], [], []], 5⟩)]
        (runBlocks ⟨bytes "x", [[], [], []], 5⟩
          (fun _ => ⟨fun _ _ _ => none, fun _ => .error []⟩) (fun _ => [])) ++ [Event.close] ∧
    sleepCount (Run ⟨bytes "x", [[], [], []], 5⟩
        (fun _ => ⟨fun _ _ _ => none, fun _ => .error []⟩) (fun _ => [])).1 = 2 ∧
    sleepCount (Run ⟨bytes "x", [[], [], []], 0⟩
        (fun _ => ⟨fun _ _ _ => none, fun _ => .error []⟩) (fun _ => [])).1 = 0 ∧
    sleepCount (Run ⟨bytes "x", [], 5⟩
        (fun _ => ⟨fun _ _ _ => none, fun _ => .error []⟩) (fun _ => [])).1 = 0 ∧
    sleepDuration ⟨bytes "x", [[], [], []], 5⟩ = 5000000 :=
  ⟨(Run_sleeps ⟨bytes "x", [[], [], []], 5⟩ (fun _ => ⟨fun _ _ _ => none, fun _ => .error []⟩)
      (fun _ => [])).1 (by decide), by decide, by decide, by decide, by decide⟩

/-! ### The tabular loader -/

/-- Assignments of keys that are new and pairwise distinct add their entries in
order. -/
theorem foldl_set_distinct (ps : List (GoString × GoString)) :
    ∀ acc : Row, (acc.map Prod.fst ++ ps.map Prod.fst).Nodup →
      ps.foldl (fun row p => row.set p.1 p.2) acc = acc ++ ps := by
  induction ps with
  | nil => intro acc _; simp
  | cons p rest ih =>
    intro acc hnd
    have hnot : p.1 ∉ acc.map Prod.fst := by
      intro hmem
      have := (List.nodup_append.1 hnd).2.2 hmem
      exact this (by simp)
    have hset : acc.set p.1 p.2 = acc ++ [p] := by
      unfold Row.set
      congr 1
      rw [List.filter_eq_self]
      intro e he
      simp only [bne_iff_ne, ne_eq]
      intro heq
      exact hnot (List.mem_map.2 ⟨e, he, heq⟩)
    rw [List.foldl_cons, hset, ih (acc ++ [p])]
    · simp
    · simpa [List.append_assoc] using hnd

/-- With pairwise distinct column names the row of a record pairs each column
name with the field at the same place. -/
theorem makeRow_zip (headers record : List GoString) (hd : headers.Nodup)
    (hlen : record.length = headers.length) :
    makeRow headers record = headers.zip record := by
  unfold makeRow
  have hfst : (headers.zip record).map Prod.fst = headers :=
    List.map_fst_zip _ _ (by omega)
  have := foldl_set_distinct (headers.zip record) [] (by simpa [hfst] using hd)
  simpa using this

/-- The value of a column name in the pairing of distinct names and fields is
the field at the place of the name. -/
theorem lookup_zip (headers : List GoString) (hd : headers.Nodup) :
    ∀ (record : List GoString) (j : Nat) (k v : GoString),
      headers[j]? = some k → record[j]? = some v →
      Row.get (headers.zip record) k = some v := by
  induction headers with
  | nil => intro record j k v hk _; simp at hk
  | cons h hs ih =>
    intro record j k v hk hv
    cases record with
    | nil => simp at hv
    | cons x xs =>
      cases j with
      | zero =>
        simp only [List.getElem?_cons_zero, Option.some.injEq] at hk hv
        subst hk hv
        simp [Row.get, List.lookup_cons]
      | succ n =>
        simp only [List.getElem?_cons_succ] at hk hv
        have hmem : k ∈ hs := List.getElem?_mem hk
        have hne : k ≠ h := by
          intro e
          subst e
          exact (List.nodup_cons.1 hd).1 hmem
        have hb : (k == h) = false := by simpa using hne
        have := ih (List.nodup_cons.1 hd).2 xs n k v hk hv
        simpa [Row.get, List.lookup_cons, hb] using this

/-- The loop over records that all have the length of the header gives the
row of each record, in order. -/
theorem recordLoop_ok (headers : List GoString) (data : List (List GoString)) :
    ∀ i : Nat, (∀ r ∈ data, r.length = headers.length) →
      recordLoop headers i data = .ok (data.map (makeRow headers)) := by
  induction data with
  | nil => intro i _; rfl
  | cons r rest ih =>
    intro i h
    have hr : ¬ r.length ≠ headers.length := by
      simpa using h r (List.mem_cons_self _ _)
    simp only [recordLoop, hr, if_false,
      ih (i + 1) (fun x hx => h x (List.mem_cons_of_mem _ hx)), List.map_cons]

/-- The loop stops at the first record that has not the length of the header,
with the error that names its line, and returns no row. -/
theorem recordLoop_error (headers bad : List GoString) (post : List (List GoString))
    (hbad : bad.length ≠ headers.length) (pre : List (List GoString)) :
    ∀ i : Nat, (∀ r ∈ pre, r.length = headers.length) →
      recordLoop headers i (pre ++ bad :: post) =
        .error (fieldCountError (i + pre.length + 2) bad.length headers.length) := by
  induction pre with
  | nil => intro i _; simp [recordLoop, hbad]
  | cons r rest ih =>
    intro i h
    have hr : ¬ r.length ≠ headers.length := by
      simpa using h r (List.mem_cons_self _ _)
    have hi : i + 1 + rest.length + 2 = i + (rest.length + 1) + 2 := by omega
    rw [List.cons_append, recordLoop, if_neg hr,
      ih (i + 1) (fun x hx => h x (List.mem_cons_of_mem _ hx)), hi, List.length_cons]

/-- The loop over records one of which has not the length of the header ends
with an error. -/
theorem recordLoop_fails (headers : List GoString) (data : List (List GoString))
    (h : ∃ r ∈ data, r.length ≠ headers.length) :
    ∀ i : Nat, ∃ err, recordLoop headers i data = .error err := by
  induction data with
  | nil => obtain ⟨r, hr, _⟩ := h; simp at hr
  | cons r rest ih =>
    intro i
    by_cases hr : r.length ≠ headers.length
    · exact ⟨fieldCountError (i + 2) r.length headers.length, by rw [recordLoop, if_pos hr]⟩
    · obtain ⟨x, hx, hxl⟩ := h
      have hx2 : x ∈ rest := by
        rcases List.mem_cons.1 hx with rfl | hx2
        · exact absurd hxl hr
        · exact hx2
      obtain ⟨err, he⟩ := ih ⟨x, hx2, hxl⟩ (i + 1)
      exact ⟨err, by simp only [recordLoop, hr, if_false, he]⟩

/-- C23: records become rows keyed by the header: for a header of pairwise
distinct column names and data records that all have as many fields as the
header, `readCSVData` returns no error and one row for each record, in record
order; the keys of each row are the column names, and the row gives to the
`j`-th column name the `j`-th field of its record, unchanged; a header alone
gives no row and no error. -/
theorem readCSVData_rows (headers : List GoString) (data : List (List GoString))
    (hd : headers.Nodup) (hlen : ∀ r ∈ data, r.length = headers.length) :
    readCSVData (.ok (headers :: data)) = .ok (data.map (fun r => headers.zip r)) ∧
    (data.map (fun r => headers.zip r)).length = data.length ∧
    (∀ r ∈ data, (headers.zip r).map Prod.fst = headers ∧
      (headers.zip r).map Prod.snd = r ∧
      ∀ (j : Nat) (k v : GoString), headers[j]? = some k → r[j]? = some v →
        Row.get (headers.zip r) k = some v) ∧
    readCSVData (.ok [headers]) = .ok [] := by
  refine ⟨?_, by simp, ?_, rfl⟩
  · simp only [readCSVData]
    rw [recordLoop_ok headers data 0 hlen]
    congr 1
    apply List.map_congr_left
    intro r hr
    exact makeRow_zip headers r hd (hlen r hr)
  · intro r hr
    have hl := hlen r hr
    exact ⟨List.map_fst_zip _ _ (by omega), List.map_snd_zip _ _ (by omega),
      fun j k v hk hv => lookup_zip headers hd r j k v hk hv⟩

/-- Witness of C23: the header NAME, EMAIL, AGE and two records, one with
spaces around a field and an empty field. -/
theorem readCSVData_rows_witness :
    (readCSVData (.ok [[bytes "NAME", bytes "EMAIL", bytes "AGE"],
        [bytes "田中太郎", bytes "tanaka@example.com", bytes "30"],
        [bytes " a ", bytes "", bytes "25"]]) =
      .ok [[(bytes "NAME", bytes "田中太郎"), (bytes "EMAIL", bytes "tanaka@example.com"),
          (bytes "AGE", bytes "30")],
        [(bytes "NAME", bytes " a "), (bytes "EMAIL", bytes ""), (bytes "AGE", bytes "25")]]) ∧
    readCSVData (.ok ([bytes "NAME", bytes "EMAIL", bytes "AGE"] ::
        [[bytes "田中太郎", bytes "tanaka@example.com", bytes "30"],
          [bytes " a ", bytes "", bytes "25"]])) =
      .ok (List.map (fun r => List.zip [bytes "NAME", bytes "EMAIL", bytes "AGE"] r)
        [[bytes "田中太郎", bytes "tanaka@example.com", bytes "30"],
          [bytes " a ", bytes "", bytes "25"]]) :=
  ⟨by decide,
    (readCSVData_rows [bytes "NAME", bytes "EMAIL", bytes "AGE"]
      [[bytes "田中太郎", bytes "tanaka@example.com", bytes "30"],
        [bytes " a ", bytes "", bytes "25"]] (by decide) (by decide)).1⟩

/-- The records that `ReadAll` returns without error are all the records of
the file, in order. -/
theorem readAllLoop_ok (syntaxError : Option GoString) (recs : List (Nat × List GoString)) :
    ∀ (n : Nat) (out : List (List GoString)),
      readAllLoop syntaxError n recs = .ok out → out = recs.map Prod.snd := by
  induction recs with
  | nil =>
    intro n out h
    cases syntaxError with
    | none => simp only [readAllLoop, Except.ok.injEq] at h; simp [← h]
    | some e => simp [readAllLoop] at h
  | cons r rest ih =>
    intro n out h
    obtain ⟨line, fields⟩ := r
    rw [readAllLoop] at h
    split at h
    · cases h
    · cases hrec : readAllLoop syntaxError (if n > 0 then n else fields.length) rest with
      | error e => rw [hrec] at h; cases h
      | ok records =>
        rw [hrec] at h
        simp only [Except.ok.injEq] at h
        rw [← h, ih _ _ hrec]
        rfl

/-- The records that the library calls return without error are all the
records of the file, in order. -/
theorem ReadAll_ok (file : CsvFile) (out : List (List GoString))
    (h : ReadAll file = .ok out) : out = file.records.map Prod.snd := by
  unfold ReadAll at h
  cases ho : file.openError with
  | some e => rw [ho] at h; cases h
  | none => rw [ho] at h; exact readAllLoop_ok _ _ _ _ h

/-- The reader, once it expects `n` fields, stops at the first record with
another number of fields, with its error for the line of that record. -/
theorem readAllLoop_error (syntaxError : Option GoString) (n bline : Nat) (hn : 0 < n)
    (bad : List GoString) (post : List (Nat × List GoString)) (hbad : bad.length ≠ n)
    (pre : List (Nat × List GoString)) :
    (∀ r ∈ pre, r.2.length = n) →
      readAllLoop syntaxError n (pre ++ (bline, bad) :: post) =
        .error (wrongFieldsError bline) := by
  induction pre with
  | nil =>
    intro _
    have hc : n > 0 ∧ bad.length ≠ n := ⟨hn, hbad⟩
    simp only [List.nil_append]
    rw [readAllLoop, if_pos hc]
  | cons r rest ih =>
    intro h
    obtain ⟨line, fields⟩ := r
    have hr : fields.length = n := h (line, fields) (List.mem_cons_self _ _)
    have hc : ¬ (n > 0 ∧ fields.length ≠ n) := fun hx => hx.2 hr
    have hpos : n > 0 := hn
    rw [List.cons_append, readAllLoop, if_neg hc, if_pos hpos,
      ih (fun x hx => h x (List.mem_cons_of_mem _ hx))]

/-- C24: malformed tabular input is refused as a whole: for a file whose
records are a header and data records one of which has another number of
fields than the header, `readCSVData` returns an error and no row, also when
the records before that one are well formed: the error is that of the csv
reader for the line of the first such record; for a file with no record at all
`readCSVData` returns the empty-file error; and every error of the library
calls is returned as it is, with no row. -/
theorem readCSVData_malformed (file : CsvFile) (headers : List GoString)
    (data : List (List GoString))
    (hrec : file.records.map Prod.snd = headers :: data)
    (h : ∃ r ∈ data, r.length ≠ headers.length) :
    (∃ err, readCSVData (ReadAll file) = .error err) ∧
    (∀ (hline bline : Nat) (pre post : List (Nat × List GoString)) (bad : List GoString),
      file.openError = none → headers ≠ [] →
      file.records = (hline, headers) :: (pre ++ (bline, bad) :: post) →
      (∀ r ∈ pre, r.2.length = headers.length) → bad.length ≠ headers.length →
      readCSVData (ReadAll file) = .error (wrongFieldsError bline)) ∧
    (∀ empty : CsvFile, empty.openError = none → empty.records = [] →
      empty.syntaxError = none →
      readCSVData (ReadAll empty) = .error (bytes "CSV file is empty")) ∧
    (∀ (other : CsvFile) (err : GoString), ReadAll other = .error err →
      readCSVData (ReadAll other) = .error err) := by
  refine ⟨?_, ?_, ?_, ?_⟩
  · cases hR : ReadAll file with
    | error e => exact ⟨e, rfl⟩
    | ok out =>
      have hout := ReadAll_ok file out hR
      rw [hrec] at hout
      subst hout
      exact recordLoop_fails headers data h 0
  · intro hline bline pre post bad ho hne hrecs hpre hbad
    have hpos : 0 < headers.length := List.length_pos.2 hne
    have hc : ¬ ((0 : Nat) > 0 ∧ headers.length ≠ 0) := fun hx => absurd hx.1 (by decide)
    have hz : ¬ ((0 : Nat) > 0) := by decide
    unfold ReadAll
    rw [ho, hrecs]
    simp only
    rw [readAllLoop, if_neg hc, if_neg hz,
      readAllLoop_error file.syntaxError headers.length bline hpos bad post hbad pre hpre]
    rfl
  · intro empty ho hr hs
    unfold ReadAll
    rw [ho, hr, hs]
    rfl
  · intro other err he
    rw [he]
    rfl

/-- Witness of C24: the file with the header NAME, EMAIL, AGE on line 1 and a
record of four fields on line 2; the same record after a well-formed one; and
the empty file. -/
theorem readCSVData_malformed_witness :
    (∃ err, readCSVData (ReadAll ⟨none, [(1, [bytes "NAME", bytes "EMAIL", bytes "AGE"]),
        (2, [bytes "田中太郎", bytes "tanaka@example.com", bytes "30", bytes "extra_field"])],
        none⟩) = .error err) ∧
    readCSVData (ReadAll ⟨none, [(1, [bytes "NAME", bytes "EMAIL", bytes "AGE"]),
        (2, [bytes "田中太郎", bytes "tanaka@example.com", bytes "30", bytes "extra_field"])],
        none⟩) = .error (bytes "record on line 2: wrong number of fields") ∧
    readCSVData (ReadAll ⟨none, [(1, [bytes "NAME", bytes "EMAIL", bytes "AGE"]),
        (2, [bytes "a", bytes "b", bytes "30"]),
        (3, [bytes "a", bytes "b", bytes "30", bytes "extra_field"])], none⟩) =
      .error (bytes "record on line 3: wrong number of fields") ∧
    readCSVData (ReadAll ⟨none, [], none⟩) = .error (bytes "CSV file is empty") :=
  ⟨(readCSVData_malformed ⟨none, [(1, [bytes "NAME", bytes "EMAIL", bytes "AGE"]),
        (2, [bytes "田中太郎", bytes "tanaka@example.com", bytes "30", bytes "extra_field"])],
        none⟩ [bytes "NAME", bytes "EMAIL", bytes "AGE"]
      [[bytes "田中太郎", bytes "tanaka@example.com", bytes "30", bytes "extra_field"]]
      (by decide) (by decide)).1,
    by decide, by decide, by decide⟩

end CurlBatch
